import Mathlib

/-!
# Verification of the Get-LLM-News ingestion/deduplication core

A shallow embedding of the record model (`src/collectors/base.py`), the
deduplication engine and the ranking/grouping helpers
(`src/processors/dedup.py`), the `safe_collect` wrapper, and the
orchestrator's gather/merge step (`src/main.py`).

Strings are modelled as `List Char`.  Character classes follow Python's
`re` semantics restricted to ASCII plus the CJK block `一-鿿`
(the only ranges the repository's data exercises).  Python `float`
arithmetic on engagement scores is modelled exactly over `ℚ` (all
multipliers are dyadic, so no rounding occurs at realistic magnitudes).
Recursive scanners that advance by more than one character use an
explicit fuel argument (initialised to the string length, which the
scan never exceeds) so that all definitions compute by kernel reduction.
-/

/-- Python `\s` (ASCII range). -/
def isSpaceChar (c : Char) : Bool :=
  c = ' ' || c = '\t' || c = '\n' || c = '\x0d' || c = '\x0b' || c = '\x0c'

/-- Python `\w`, restricted to ASCII alphanumerics, `_`, and the CJK
ideograph block `一`–`鿿`. -/
def isWordChar (c : Char) : Bool :=
  c.isAlphanum || c = '_' || (0x4e00 ≤ c.toNat && c.toNat ≤ 0x9fff)

/-- `dropPrefix? p l` returns `some` of the remainder of `l` after the
literal prefix `p`, or `none` when `p` is not a prefix of `l`. -/
def dropPrefix? : List Char → List Char → Option (List Char)
  | [], l => some l
  | _ :: _, [] => none
  | p :: ps, c :: cs => if c = p then dropPrefix? ps cs else none

/-- The literal `utm_` opening the first alternative of the tracking-key
regex in `Deduplicator._normalize_url`. -/
def utmLit : List Char := "utm_".toList

/-- The literal alternatives `ref|source|fbclid|gclid` of the
tracking-key regex. -/
def litKeys : List (List Char) := ["ref".toList, "source".toList, "fbclid".toList, "gclid".toList]

/-- Regex fragment `utm_\w+=` applied after the literal `utm_`:
a nonempty run of word characters followed by `=`; returns the
remainder after the `=`. -/
def matchAfterUtm (t : List Char) : Option (List Char) :=
  if t.takeWhile isWordChar ≠ [] ∧ (t.dropWhile isWordChar).head? = some '=' then
    some (t.dropWhile isWordChar).tail
  else none

/-- Try each literal alternative `k=` in order. -/
def matchLit : List (List Char) → List Char → Option (List Char)
  | [], _ => none
  | k :: ks, l =>
    match dropPrefix? (k ++ ['=']) l with
    | some v => some v
    | none => matchLit ks l

/-- Regex fragment `(utm_\w+|ref|source|fbclid|gclid)=` at the start of
`l`, with Python's left-to-right alternation; returns the remainder
after the `=`. -/
def matchKeyEq (l : List Char) : Option (List Char) :=
  match dropPrefix? utmLit l with
  | some t =>
    match matchAfterUtm t with
    | some v => some v
    | none => matchLit litKeys l
  | none => matchLit litKeys l

/-- `re.sub(r"[?&](utm_\w+|ref|source|fbclid|gclid)=[^&]*", "", url)`:
left-to-right scan; at `?`/`&` try the key match, and on success drop
the greedy `[^&]*` value and resume after it. -/
def stripTrackingF : Nat → List Char → List Char
  | 0, _ => []
  | _ + 1, [] => []
  | fuel + 1, c :: rest =>
    if c = '?' ∨ c = '&' then
      match matchKeyEq rest with
      | some v => stripTrackingF fuel (v.dropWhile (fun d => !(d == '&')))
      | none => c :: stripTrackingF fuel rest
    else c :: stripTrackingF fuel rest

def stripTracking (l : List Char) : List Char := stripTrackingF l.length l

/-- Python `url.rstrip("/")`. -/
def rstripSlash (l : List Char) : List Char :=
  (l.reverse.dropWhile (fun c => c == '/')).reverse

def httpLit : List Char := "http://".toList

def httpsLit : List Char := "https://".toList

/-- Python `url.replace("http://", "https://")`: replace every
non-overlapping occurrence, scanning left to right. -/
def replaceHttpF : Nat → List Char → List Char
  | 0, l => l
  | _ + 1, [] => []
  | fuel + 1, c :: rest =>
    match dropPrefix? httpLit (c :: rest) with
    | some tail => httpsLit ++ replaceHttpF fuel tail
    | none => c :: replaceHttpF fuel rest

def replaceHttp (l : List Char) : List Char := replaceHttpF l.length l

/-- `Deduplicator._normalize_url`. -/
def normalize_url (u : List Char) : List Char :=
  replaceHttp (rstripSlash (stripTracking u))

/-- Python `str.strip()` (over the modelled whitespace class). -/
def stripEnds (l : List Char) : List Char :=
  ((l.dropWhile isSpaceChar).reverse.dropWhile isSpaceChar).reverse

/-- The character class kept by `re.sub(r"[^\w\s一-鿿]", "", title)`. -/
def keepTitleChar (c : Char) : Bool :=
  isWordChar c || isSpaceChar c || (0x4e00 ≤ c.toNat && c.toNat ≤ 0x9fff)

/-- `re.sub(r"\s+", " ", title)`: collapse each maximal whitespace run
to a single space. -/
def collapseWsF : Nat → List Char → List Char
  | 0, _ => []
  | _ + 1, [] => []
  | fuel + 1, c :: rest =>
    if isSpaceChar c then ' ' :: collapseWsF fuel (rest.dropWhile isSpaceChar)
    else c :: collapseWsF fuel rest

def collapseWs (l : List Char) : List Char := collapseWsF l.length l

/-- `Deduplicator._normalize_title`. -/
def normalize_title (t : List Char) : List Char :=
  collapseWs ((stripEnds (t.map Char.toLower)).filter keepTitleChar)

/-! ## `difflib.SequenceMatcher` similarity

Ratcliff–Obershelp ratio as implemented by CPython's `difflib`
(autojunk only activates for sequences of length ≥ 200, far beyond any
title compared here, so the junk machinery is inert and omitted). -/

/-- Lookup in the `j2len` map with default `0`. -/
def lookupLen (m : List (Nat × Nat)) (key : Nat) : Nat :=
  match m.find? (fun p => p.1 == key) with
  | some p => p.2
  | none => 0

/-- The increasing list of positions `j` of character `c` in
`b[blo:bhi]` (difflib's `b2j[a[i]]` restricted to the window). -/
def occB (b : List Char) (c : Char) (blo bhi : Nat) : List Nat :=
  (List.range b.length).filter (fun j => decide (blo ≤ j) && decide (j < bhi) && (b.getD j ' ' == c))

/-- One row of `find_longest_match`'s dynamic program: scan the
positions of `a[i]` in the window, building `newj2len` and updating the
best block. -/
def flmRow (j2len : List (Nat × Nat)) (i : Nat) (js : List Nat)
    (best : Nat × Nat × Nat) : List (Nat × Nat) × (Nat × Nat × Nat) :=
  js.foldl
    (fun acc j =>
      let k := if j = 0 then 1 else lookupLen j2len (j - 1) + 1
      let b := acc.2
      (⟨(j, k) :: acc.1,
        if b.2.2 < k then (i + 1 - k, j + 1 - k, k) else b⟩))
    ([], best)

/-- `SequenceMatcher.find_longest_match(alo, ahi, blo, bhi)` (no junk):
returns `(i, j, size)`. -/
def findLongestMatch (a b : List Char) (alo ahi blo bhi : Nat) : Nat × Nat × Nat :=
  let res := (List.range' alo (ahi - alo)).foldl
    (fun acc i =>
      let js := occB b (a.getD i ' ') blo bhi
      flmRow acc.1 i js acc.2)
    (([] : List (Nat × Nat)), (alo, blo, 0))
  res.2

/-- Total number of matched characters over all matching blocks
(`get_matching_blocks` recursion; merging adjacent blocks does not
change the total). -/
def matchTotalF : Nat → List Char → List Char → Nat → Nat → Nat → Nat → Nat
  | 0, _, _, _, _, _, _ => 0
  | fuel + 1, a, b, alo, ahi, blo, bhi =>
    let r := findLongestMatch a b alo ahi blo bhi
    let i := r.1
    let j := r.2.1
    let k := r.2.2
    if k = 0 then 0
    else matchTotalF fuel a b alo i blo j + k + matchTotalF fuel a b (i + k) ahi (j + k) bhi

/-- `SequenceMatcher(None, a, b).ratio()` as an exact rational. -/
def similarity (a b : List Char) : ℚ :=
  if a.length + b.length = 0 then 1
  else (2 * (matchTotalF (a.length + b.length + 1) a b 0 a.length 0 b.length) : ℚ)
        / (a.length + b.length)

/-! ## Record model (`NewsItem`, `src/collectors/base.py`) -/

/-- `NewsItem`: the fields the core pipeline reads or writes
(`published_at`/`collected_at` are opaque to every claim and omitted). -/
structure NewsItem where
  title : List Char
  content : String
  source : String
  url : List Char
  author : String
  engagement : Int
  comments_count : Int
  tags : List String
  is_kol : Bool
  kol_tier : String
  summary : String
  sentiment : String
deriving DecidableEq, Repr

/-- `{"S": 3.0, "A": 2.0, "B": 1.5}.get(self.kol_tier, 1.0)`. -/
def kolMultiplier (t : String) : ℚ :=
  if t = "S" then 3 else if t = "A" then 2 else if t = "B" then 3 / 2 else 1

/-- `NewsItem.engagement_score`. -/
def engagement_score (r : NewsItem) : ℚ :=
  ((r.engagement : ℚ) + (r.comments_count : ℚ) * 2) * kolMultiplier r.kol_tier

/-! ## Deduplication engine (`src/processors/dedup.py`) -/

/-- The comparator realising Python's stable
`sorted(key=engagement_score, reverse=True)`: `a` may stay before `b`
iff `score b ≤ score a`. -/
def scoreLe (a b : NewsItem) : Bool :=
  decide (engagement_score b ≤ engagement_score a)

/-- `sort_by_engagement`. -/
def sort_by_engagement (items : List NewsItem) : List NewsItem :=
  items.mergeSort scoreLe

/-- The tag-union loop of `_deduplicate_by_title`:
`for tag in item.tags: if tag not in kept_item.tags: kept_item.tags.append(tag)`. -/
def mergeTags (keptTags candTags : List String) : List String :=
  candTags.foldl (fun acc t => if t ∈ acc then acc else acc ++ [t]) keptTags

/-- Processing of one candidate against the kept list in
`_deduplicate_by_title`: find the first kept record whose normalized
title is within the threshold; merge tags into it and discard the
candidate, else append the candidate. -/
def step (thr : ℚ) (item : NewsItem) : List NewsItem → List NewsItem
  | [] => [item]
  | k :: ks =>
    if thr ≤ similarity (normalize_title item.title) (normalize_title k.title) then
      { k with tags := mergeTags k.tags item.tags } :: ks
    else
      k :: step thr item ks

/-- `Deduplicator._deduplicate_by_title`. -/
def dedup_by_title (thr : ℚ) (items : List NewsItem) : List NewsItem :=
  (items.mergeSort scoreLe).foldl (fun kept item => step thr item kept) []

/-- Normalized-URL key of a record. -/
def urlKey (r : NewsItem) : List Char := normalize_url r.url

/-- Python-dict update of `url_map`: replace in place when the new item
scores strictly higher, else keep; insert at the end when absent. -/
def upsert : List (List Char × NewsItem) → List Char → NewsItem → List (List Char × NewsItem)
  | [], key, item => [(key, item)]
  | (k, v) :: rest, key, item =>
    if k = key then
      (if engagement_score v < engagement_score item then (k, item) else (k, v)) :: rest
    else
      (k, v) :: upsert rest key item

/-- `Deduplicator._deduplicate_by_url`. -/
def dedup_by_url (items : List NewsItem) : List NewsItem :=
  (items.foldl (fun m item => upsert m (urlKey item) item) []).map Prod.snd

/-- `Deduplicator.deduplicate`. -/
def deduplicate (thr : ℚ) (items : List NewsItem) : List NewsItem :=
  dedup_by_title thr (dedup_by_url items)

/-- The default `similarity_threshold = 0.75` (used by `run_pipeline`). -/
def defaultThreshold : ℚ := 3 / 4

/-! ## Grouping (`src/processors/dedup.py`) -/

/-- Python `groups.setdefault(key, []).append(item)` on an
insertion-ordered dict. -/
def appendGroup : List (String × List NewsItem) → String → NewsItem → List (String × List NewsItem)
  | [], key, item => [(key, [item])]
  | (k, v) :: rest, key, item =>
    if k = key then (k, v ++ [item]) :: rest
    else (k, v) :: appendGroup rest key item

/-- The sentinel group key used by `group_by_product` for untagged
records (rendered "Unclassified" in the spec). -/
def unclassifiedKey : String := "未分类"

/-- `group_by_product`. -/
def group_by_product (items : List NewsItem) : List (String × List NewsItem) :=
  let groups := items.foldl
    (fun m item =>
      if item.tags = [] then appendGroup m unclassifiedKey item
      else item.tags.foldl (fun m2 t => appendGroup m2 t item) m)
    []
  groups.map (fun p => (p.1, sort_by_engagement p.2))

/-- `group_by_source` (note: no per-group sort in the source). -/
def group_by_source (items : List NewsItem) : List (String × List NewsItem) :=
  items.foldl (fun m item => appendGroup m item.source item) []

/-- Dict indexing with default `[]`. -/
def lookupGroup (m : List (String × List NewsItem)) (key : String) : List NewsItem :=
  match m.find? (fun p => p.1 == key) with
  | some p => p.2
  | none => []

/-! ## Collector contract (`src/collectors/base.py`) and orchestrator
(`src/main.py`) -/

/-- A collector as the orchestrator sees it: `collect()` either
returns a record list or raises (modelled as `Except`). -/
structure Collector where
  source_name : String
  collect : Except String (List NewsItem)

/-- `BaseCollector.safe_collect`: `try: return await self.collect()
except Exception: return []`. -/
def safe_collect (c : Collector) : List NewsItem :=
  match c.collect with
  | .ok items => items
  | .error _ => []

/-- A run's completion log: `(task index, result)` pairs in arrival
order.  `asyncio.gather` re-assembles results by task index, not by
arrival order. -/
def gatherResults (n : Nat) (completions : List (Nat × List NewsItem)) : List (List NewsItem) :=
  (List.range n).map (fun i =>
    match completions.find? (fun p => p.1 == i) with
    | some p => p.2
    | none => [])

/-- `run_pipeline`'s merge: `for result in results: all_items.extend(result)`. -/
def mergedItems (n : Nat) (completions : List (Nat × List NewsItem)) : List NewsItem :=
  (gatherResults n completions).flatten

/-- The deduplicated, ranked, truncated output of `run_pipeline`
downstream of the merge. -/
def pipelineOutput (n : Nat) (completions : List (Nat × List NewsItem)) (maxN : Nat) : List NewsItem :=
  (sort_by_engagement (deduplicate defaultThreshold (mergedItems n completions))).take maxN

/-! ## Basic facts about the score comparator -/

lemma scoreLe_trans : ∀ (a b c : NewsItem), scoreLe a b → scoreLe b c → scoreLe a c := by
  intro a b c hab hbc
  simp only [scoreLe, decide_eq_true_eq] at *
  exact le_trans hbc hab

lemma scoreLe_total : ∀ (a b : NewsItem), scoreLe a b || scoreLe b a := by
  intro a b
  simp only [scoreLe]
  rcases le_total (engagement_score a) (engagement_score b) with h | h
  · simp [h]
  · simp [h]

/-- A convenient record constructor for concrete test inputs. -/
def mkItem (title url : List Char) (source : String) (e c : Int)
    (tags : List String) (tier : String) : NewsItem :=
  { title := title, content := "", source := source, url := url, author := "",
    engagement := e, comments_count := c, tags := tags, is_kol := false,
    kol_tier := tier, summary := "", sentiment := "" }

/-- C4: for every record, `engagement_score` equals
`(engagement + comments_count * 2) * tier_multiplier` with multiplier
3 for tier S, 2 for A, 1.5 for B and 1 otherwise; in particular
`engagement=10, comments_count=5, kol_tier="S"` scores 60. -/
theorem C4_engagement_score_formula (r : NewsItem) :
    engagement_score r =
      ((r.engagement : ℚ) + (r.comments_count : ℚ) * 2) *
        (if r.kol_tier = "S" then 3 else if r.kol_tier = "A" then 2
         else if r.kol_tier = "B" then 3 / 2 else 1)
    ∧ (r.engagement = 10 → r.comments_count = 5 → r.kol_tier = "S" →
        engagement_score r = 60) := by
  constructor
  · rfl
  · intro h1 h2 h3
    simp [engagement_score, kolMultiplier, h1, h2, h3]
    norm_num

/-- Witness for C4 at a concrete record. -/
theorem C4_engagement_score_formula_witness :
    engagement_score (mkItem [] [] ("hackernews") 10 5 [] ("S")) = 60 :=
  (C4_engagement_score_formula _).2 rfl rfl rfl

/-- C8: `safe_collect` returns `[]` whenever `collect()` raises, and
returns exactly the collected list whenever `collect()` succeeds. -/
theorem C8_safe_collect_isolation (c : Collector) :
    (∀ e, c.collect = .error e → safe_collect c = [])
    ∧ (∀ items, c.collect = .ok items → safe_collect c = items) := by
  constructor
  · intro e h
    simp [safe_collect, h]
  · intro items h
    simp [safe_collect, h]

/-- Witness for C8: a failing collector yields `[]`, a succeeding
collector yields its own list. -/
theorem C8_safe_collect_isolation_witness :
    safe_collect ⟨"hackernews", .error ("boom")⟩ = []
    ∧ safe_collect ⟨"reddit", .ok [mkItem [] [] ("reddit") 1 0 [] ""]⟩
        = [mkItem [] [] ("reddit") 1 0 [] ""] :=
  ⟨(C8_safe_collect_isolation _).1 ("boom") rfl,
   (C8_safe_collect_isolation _).2 _ rfl⟩

/-! ## Merge-order invariance (C9) -/

lemma find?_eq_of_perm {β : Type} (l l' : List (Nat × β)) (h : l.Perm l')
    (nd : (l.map Prod.fst).Nodup) (i : Nat) :
    l.find? (fun p => p.1 == i) = l'.find? (fun p => p.1 == i) := by
  induction h with
  | nil => rfl
  | cons x h ih =>
    rw [List.map_cons, List.nodup_cons] at nd
    rw [List.find?_cons, List.find?_cons]
    cases hx : (x.1 == i)
    · simp only [hx]
      exact ih nd.2
    · simp only [hx]
  | swap x y l =>
    rw [List.map_cons, List.map_cons, List.nodup_cons] at nd
    have hxy : y.1 ≠ x.1 := fun e => nd.1 (by rw [e]; exact List.mem_cons_self _ _)
    rw [List.find?_cons, List.find?_cons, List.find?_cons, List.find?_cons]
    cases hx : (x.1 == i) <;> cases hy : (y.1 == i) <;> simp only [hx, hy]
    exact absurd (by
      have h1 : x.1 = i := by simpa using hx
      have h2 : y.1 = i := by simpa using hy
      rw [h2, h1]) hxy
  | trans h1 h2 ih1 ih2 =>
    have nd2 : _ := ((h1.map Prod.fst).nodup_iff).mp nd
    exact (ih1 nd).trans (ih2 nd2)

/-- C9: the orchestrator's merged list is the concatenation of the
per-task results in fixed task order; permuting only the arrival order
of completions (each task completing once) changes neither the merged
list nor the final deduplicated/ranked output. -/
theorem C9_merge_order_invariance (n maxN : Nat)
    (c1 c2 : List (Nat × List NewsItem)) (hperm : c1.Perm c2)
    (hnd : (c1.map Prod.fst).Nodup) :
    mergedItems n c1 = mergedItems n c2
    ∧ pipelineOutput n c1 maxN = pipelineOutput n c2 maxN := by
  have hg : gatherResults n c1 = gatherResults n c2 := by
    unfold gatherResults
    congr 1
    funext i
    rw [find?_eq_of_perm c1 c2 hperm hnd]
  refine ⟨?_, ?_⟩
  · unfold mergedItems
    rw [hg]
  · unfold pipelineOutput mergedItems
    rw [hg]

/-- Witness for C9: two completion orders of the same two tasks. -/
theorem C9_merge_order_invariance_witness :
    mergedItems 2 [(0, [mkItem [] [] ("h") 1 0 [] ""]), (1, [mkItem [] [] ("r") 2 0 [] ""])]
      = mergedItems 2 [(1, [mkItem [] [] ("r") 2 0 [] ""]), (0, [mkItem [] [] ("h") 1 0 [] ""])]
    ∧ pipelineOutput 2 [(0, [mkItem [] [] ("h") 1 0 [] ""]), (1, [mkItem [] [] ("r") 2 0 [] ""])] 5
      = pipelineOutput 2 [(1, [mkItem [] [] ("r") 2 0 [] ""]), (0, [mkItem [] [] ("h") 1 0 [] ""])] 5 :=
  C9_merge_order_invariance 2 5 _ _ (by decide) (by decide)

/-! ## Stable descending ranking (C5) -/

/-- C5: `sort_by_engagement` is a permutation of its input, ordered by
non-increasing `engagement_score`, records of equal score keep their
input order, and the sort opening Phase-2 fuzzy deduplication is the
same sort. -/
theorem C5_stable_descending_sort (l : List NewsItem) (thr q : ℚ) :
    (sort_by_engagement l).Perm l
    ∧ (sort_by_engagement l).Pairwise
        (fun a b => engagement_score b ≤ engagement_score a)
    ∧ (sort_by_engagement l).filter (fun r => decide (engagement_score r = q))
        = l.filter (fun r => decide (engagement_score r = q))
    ∧ dedup_by_title thr l
        = (sort_by_engagement l).foldl (fun kept item => step thr item kept) [] := by
  refine ⟨List.mergeSort_perm l scoreLe, ?_, ?_, rfl⟩
  · exact (List.sorted_mergeSort scoreLe_trans scoreLe_total l).imp
      (fun h => of_decide_eq_true h)
  · have hmem : ∀ a ∈ l.filter (fun r => decide (engagement_score r = q)),
        engagement_score a = q := by
      intro a ha
      exact of_decide_eq_true (List.mem_filter.mp ha).2
    have hpw : (l.filter (fun r => decide (engagement_score r = q))).Pairwise
        (fun a b => scoreLe a b) := by
      apply List.pairwise_of_forall_mem_list
      intro a ha b hb
      have : engagement_score b ≤ engagement_score a := by
        rw [hmem a ha, hmem b hb]
      exact decide_eq_true this
    have h1 : List.Sublist (l.filter (fun r => decide (engagement_score r = q)))
        (List.mergeSort l scoreLe) :=
      List.sublist_mergeSort scoreLe_trans scoreLe_total hpw (List.filter_sublist l)
    have h2 : List.Sublist (l.filter (fun r => decide (engagement_score r = q)))
        ((List.mergeSort l scoreLe).filter (fun r => decide (engagement_score r = q))) := by
      have h3 := h1.filter (fun r => decide (engagement_score r = q))
      rwa [List.filter_eq_self.mpr (fun a ha => (List.mem_filter.mp ha).2)] at h3
    have h4 : ((List.mergeSort l scoreLe).filter
          (fun r => decide (engagement_score r = q))).length
        = (l.filter (fun r => decide (engagement_score r = q))).length :=
      ((List.mergeSort_perm l scoreLe).filter _).length_eq
    exact (h2.eq_of_length h4.symm).symm

/-! ## Grouping lemmas (C6, C7) -/

lemma mergeSort_pair {α : Type} (le : α → α → Bool) (a b : α) :
    [a, b].mergeSort le = if le a b then [a, b] else [b, a] := by
  simp [List.mergeSort, List.merge, List.splitInTwo, List.splitAt, List.splitAt.go]

lemma lookupGroup_cons (k0 : String) (v0 : List NewsItem)
    (tl : List (String × List NewsItem)) (k : String) :
    lookupGroup ((k0, v0) :: tl) k = if k0 = k then v0 else lookupGroup tl k := by
  by_cases h : k0 = k
  · simp [lookupGroup, List.find?_cons, h]
  · simp [lookupGroup, List.find?_cons, h]

lemma appendGroup_cons (k0 : String) (v0 : List NewsItem)
    (tl : List (String × List NewsItem)) (key : String) (item : NewsItem) :
    appendGroup ((k0, v0) :: tl) key item =
      if k0 = key then (k0, v0 ++ [item]) :: tl
      else (k0, v0) :: appendGroup tl key item := by
  rfl

lemma lookupGroup_appendGroup (m : List (String × List NewsItem)) (key : String)
    (item : NewsItem) (k : String) :
    lookupGroup (appendGroup m key item) k =
      if k = key then lookupGroup m k ++ [item] else lookupGroup m k := by
  induction m with
  | nil =>
    show lookupGroup [(key, [item])] k = _
    rw [lookupGroup_cons]
    by_cases h : k = key
    · simp [h, lookupGroup]
    · have h' : ¬ key = k := fun e => h e.symm
      simp [h, h', lookupGroup]
  | cons hd tl ih =>
    obtain ⟨k0, v0⟩ := hd
    rw [appendGroup_cons]
    by_cases h0 : k0 = key
    · subst h0
      rw [if_pos rfl]
      simp only [lookupGroup_cons]
      by_cases h : k0 = k
      · subst h
        simp
      · have h' : ¬ k = k0 := fun e => h e.symm
        simp [h, h']
    · rw [if_neg h0]
      simp only [lookupGroup_cons]
      by_cases h : k0 = k
      · subst h
        simp [h0]
      · simp [h, ih]

lemma keys_appendGroup (m : List (String × List NewsItem)) (key : String) (item : NewsItem) :
    (appendGroup m key item).map Prod.fst =
      if key ∈ m.map Prod.fst then m.map Prod.fst else m.map Prod.fst ++ [key] := by
  induction m with
  | nil => simp [appendGroup]
  | cons hd tl ih =>
    obtain ⟨k0, v0⟩ := hd
    rw [appendGroup_cons]
    by_cases h0 : k0 = key
    · subst h0
      simp
    · rw [if_neg h0]
      simp only [List.map_cons, List.mem_cons]
      rw [ih]
      by_cases hm : key ∈ tl.map Prod.fst
      · simp [hm]
      · simp [hm, Ne.symm h0]

lemma keys_nodup_appendGroup (m : List (String × List NewsItem)) (key : String)
    (item : NewsItem) (h : (m.map Prod.fst).Nodup) :
    ((appendGroup m key item).map Prod.fst).Nodup := by
  rw [keys_appendGroup]
  by_cases hm : key ∈ m.map Prod.fst
  · simpa [hm] using h
  · rw [if_neg hm]
    simp only [List.nodup_append, List.nodup_cons]
    exact ⟨h, by simp, by simpa using hm⟩

lemma group_by_source_lookup (l : List NewsItem) (k : String) :
    lookupGroup (group_by_source l) k = l.filter (fun r => r.source == k) := by
  suffices h : ∀ m, lookupGroup (l.foldl (fun m item => appendGroup m item.source item) m) k
      = lookupGroup m k ++ l.filter (fun r => r.source == k) by
    simpa [lookupGroup] using h []
  induction l with
  | nil =>
    intro m
    simp
  | cons a t ih =>
    intro m
    rw [List.foldl_cons, ih, lookupGroup_appendGroup, List.filter_cons]
    by_cases h : k = a.source
    · simp [h, List.append_assoc]
    · have h' : ¬ a.source = k := fun e : a.source = k => h e.symm
      simp [h, h']

lemma group_by_source_keys_nodup (l : List NewsItem) :
    ((group_by_source l).map Prod.fst).Nodup := by
  suffices h : ∀ m, (m.map Prod.fst).Nodup →
      (((l.foldl (fun m item => appendGroup m item.source item) m)).map Prod.fst).Nodup by
    exact h [] (by simp)
  induction l with
  | nil => intro m hm; simpa using hm
  | cons a t ih =>
    intro m hm
    exact ih _ (keys_nodup_appendGroup m a.source a hm)

/-- C6 (amended): grouping by source is single-membership keyed by
`source` — group keys are distinct and the group for key `k` is exactly
the input subsequence of records with `source = k`, in input order
(`group_by_source` itself does not re-sort the member lists). -/
theorem C6_source_grouping_amended (l : List NewsItem) (k : String) :
    ((group_by_source l).map Prod.fst).Nodup
    ∧ lookupGroup (group_by_source l) k = l.filter (fun r => r.source == k) :=
  ⟨group_by_source_keys_nodup l, group_by_source_lookup l k⟩

/-- Counterexample to C6 as stated: two same-source records arriving in
ascending score order stay in input order inside their source group, so
the group member list is not the claimed stable descending re-ranking. -/
theorem C6_counterexample :
    lookupGroup (group_by_source
        [mkItem [] [] ("s") 1 0 [] "", mkItem [] [] ("s") 5 0 [] ""]) ("s")
      ≠ sort_by_engagement (lookupGroup (group_by_source
        [mkItem [] [] ("s") 1 0 [] "", mkItem [] [] ("s") 5 0 [] ""]) ("s")) := by
  have e1 : lookupGroup (group_by_source
      [mkItem [] [] ("s") 1 0 [] "", mkItem [] [] ("s") 5 0 [] ""]) ("s")
      = [mkItem [] [] ("s") 1 0 [] "", mkItem [] [] ("s") 5 0 [] ""] := by
    decide
  have e2 : sort_by_engagement
      [mkItem [] [] ("s") 1 0 [] "", mkItem [] [] ("s") 5 0 [] ""]
      = [mkItem [] [] ("s") 5 0 [] "", mkItem [] [] ("s") 1 0 [] ""] := by
    rw [sort_by_engagement, mergeSort_pair]
    rw [if_neg (by
      simp only [scoreLe, engagement_score, mkItem,
        show kolMultiplier "" = 1 from rfl, decide_eq_true_eq]
      norm_num)]
  rw [e1, e2]
  decide

/-! ## Product grouping (C7) -/

/-- How many copies of `item` the product-grouping step files under key
`k`: one in the sentinel group when untagged, else one per occurrence of
`k` among its tags. -/
def effCount (item : NewsItem) (k : String) : Nat :=
  if item.tags = [] then (if k = unclassifiedKey then 1 else 0)
  else item.tags.count k

lemma lookupGroup_tags_fold (tags : List String) (item : NewsItem) (k : String) :
    ∀ m, lookupGroup (tags.foldl (fun m2 t => appendGroup m2 t item) m) k
      = lookupGroup m k ++ List.replicate (tags.count k) item := by
  induction tags with
  | nil =>
    intro m
    simp
  | cons t ts ih =>
    intro m
    rw [List.foldl_cons, ih, lookupGroup_appendGroup, List.count_cons]
    by_cases h : k = t
    · subst h
      simp only [beq_self_eq_true, if_true]
      rw [List.replicate_succ', List.append_assoc, List.singleton_append,
        ← List.replicate_succ, List.replicate_succ']
    · have h' : ¬ t = k := fun e => h e.symm
      simp [h, h']

lemma lookupGroup_prodStep (m : List (String × List NewsItem)) (item : NewsItem) (k : String) :
    lookupGroup (if item.tags = [] then appendGroup m unclassifiedKey item
        else item.tags.foldl (fun m2 t => appendGroup m2 t item) m) k
      = lookupGroup m k ++ List.replicate (effCount item k) item := by
  by_cases ht : item.tags = []
  · rw [if_pos ht, lookupGroup_appendGroup]
    unfold effCount
    rw [if_pos ht]
    by_cases hk : k = unclassifiedKey
    · simp [hk]
    · simp [hk]
  · rw [if_neg ht, lookupGroup_tags_fold]
    unfold effCount
    rw [if_neg ht]

lemma lookupGroup_group_raw (l : List NewsItem) (k : String) :
    lookupGroup (l.foldl
        (fun m item => if item.tags = [] then appendGroup m unclassifiedKey item
          else item.tags.foldl (fun m2 t => appendGroup m2 t item) m) []) k
      = (l.map (fun item => List.replicate (effCount item k) item)).flatten := by
  suffices h : ∀ m, lookupGroup (l.foldl
      (fun m item => if item.tags = [] then appendGroup m unclassifiedKey item
        else item.tags.foldl (fun m2 t => appendGroup m2 t item) m) m) k
      = lookupGroup m k ++ (l.map (fun item => List.replicate (effCount item k) item)).flatten by
    simpa [lookupGroup] using h []
  induction l with
  | nil =>
    intro m
    simp
  | cons a t ih =>
    intro m
    rw [List.foldl_cons, ih, lookupGroup_prodStep]
    simp [List.append_assoc]

lemma lookupGroup_map_sort (m : List (String × List NewsItem)) (k : String) :
    lookupGroup (m.map (fun p => (p.1, sort_by_engagement p.2))) k
      = sort_by_engagement (lookupGroup m k) := by
  induction m with
  | nil => simp [lookupGroup, sort_by_engagement, List.mergeSort]
  | cons hd tl ih =>
    obtain ⟨k0, v0⟩ := hd
    rw [List.map_cons, lookupGroup_cons, lookupGroup_cons]
    by_cases h : k0 = k
    · rw [if_pos h, if_pos h]
    · rw [if_neg h, if_neg h, ih]

lemma group_by_product_lookup (l : List NewsItem) (k : String) :
    lookupGroup (group_by_product l) k
      = sort_by_engagement ((l.map (fun item => List.replicate (effCount item k) item)).flatten) := by
  rw [show group_by_product l
      = ((l.foldl (fun m item => if item.tags = [] then appendGroup m unclassifiedKey item
          else item.tags.foldl (fun m2 t => appendGroup m2 t item) m) []).map
        (fun p => (p.1, sort_by_engagement p.2))) from rfl]
  rw [lookupGroup_map_sort, lookupGroup_group_raw]

lemma effCount_ne_zero (r : NewsItem) (k : String) :
    effCount r k ≠ 0 ↔ (k ∈ r.tags ∨ (r.tags = [] ∧ k = unclassifiedKey)) := by
  unfold effCount
  by_cases ht : r.tags = []
  · by_cases hk : k = unclassifiedKey <;> simp [ht, hk]
  · simp only [if_neg ht]
    rw [Ne, List.count_eq_zero]
    simp [ht, not_not]

lemma mem_group_by_product (l : List NewsItem) (r : NewsItem) (k : String) :
    r ∈ lookupGroup (group_by_product l) k ↔ r ∈ l ∧ effCount r k ≠ 0 := by
  rw [group_by_product_lookup, sort_by_engagement, List.mem_mergeSort]
  constructor
  · intro h
    rw [List.mem_flatten] at h
    obtain ⟨g, hg, hrg⟩ := h
    rw [List.mem_map] at hg
    obtain ⟨x, hx, rfl⟩ := hg
    rw [List.mem_replicate] at hrg
    obtain ⟨hn, rfl⟩ := hrg
    exact ⟨hx, hn⟩
  · intro h
    obtain ⟨hr, hn⟩ := h
    rw [List.mem_flatten]
    exact ⟨List.replicate (effCount r k) r, List.mem_map.mpr ⟨r, hr, rfl⟩,
      List.mem_replicate.mpr ⟨hn, rfl⟩⟩

lemma keys_nodup_tags_fold (tags : List String) (item : NewsItem) :
    ∀ m, (m.map Prod.fst).Nodup →
      ((tags.foldl (fun m2 t => appendGroup m2 t item) m).map Prod.fst).Nodup := by
  induction tags with
  | nil => intro m hm; simpa using hm
  | cons t ts ih =>
    intro m hm
    exact ih _ (keys_nodup_appendGroup m t item hm)

lemma group_by_product_keys_nodup (l : List NewsItem) :
    ((group_by_product l).map Prod.fst).Nodup := by
  rw [show group_by_product l
      = ((l.foldl (fun m item => if item.tags = [] then appendGroup m unclassifiedKey item
          else item.tags.foldl (fun m2 t => appendGroup m2 t item) m) []).map
        (fun p => (p.1, sort_by_engagement p.2))) from rfl]
  rw [List.map_map]
  rw [show (Prod.fst ∘ fun p : String × List NewsItem => (p.1, sort_by_engagement p.2))
      = Prod.fst from funext fun p => rfl]
  suffices h : ∀ m, (m.map Prod.fst).Nodup →
      (((l.foldl (fun m item => if item.tags = [] then appendGroup m unclassifiedKey item
        else item.tags.foldl (fun m2 t => appendGroup m2 t item) m) m)).map Prod.fst).Nodup by
    exact h [] (by simp)
  induction l with
  | nil => intro m hm; simpa using hm
  | cons a t ih =>
    intro m hm
    rw [List.foldl_cons]
    apply ih
    by_cases ht : a.tags = []
    · rw [if_pos ht]
      exact keys_nodup_appendGroup m unclassifiedKey a hm
    · rw [if_neg ht]
      exact keys_nodup_tags_fold a.tags a m hm

lemma lookupGroup_eq_nil_of_not_mem (m : List (String × List NewsItem)) (k : String)
    (h : k ∉ m.map Prod.fst) : lookupGroup m k = [] := by
  induction m with
  | nil => rfl
  | cons hd tl ih =>
    obtain ⟨k0, v0⟩ := hd
    rw [List.map_cons, List.mem_cons] at h
    rw [lookupGroup_cons, if_neg (fun e => h (Or.inl e.symm))]
    exact ih (fun e => h (Or.inr e))

lemma mem_keys_of_lookupGroup_mem (m : List (String × List NewsItem)) (k : String)
    (r : NewsItem) (h : r ∈ lookupGroup m k) : k ∈ m.map Prod.fst := by
  by_contra hk
  rw [lookupGroup_eq_nil_of_not_mem m k hk] at h
  exact List.not_mem_nil r h

lemma length_filter_entries (m : List (String × List NewsItem)) (r : NewsItem)
    (hnd : (m.map Prod.fst).Nodup) :
    (m.filter (fun p => decide (r ∈ p.2))).length
      = ((m.map Prod.fst).filter (fun k => decide (r ∈ lookupGroup m k))).length := by
  induction m with
  | nil => rfl
  | cons hd tl ih =>
    obtain ⟨k0, v0⟩ := hd
    rw [List.map_cons, List.nodup_cons] at hnd
    have e0 : lookupGroup ((k0, v0) :: tl) k0 = v0 := by
      rw [lookupGroup_cons, if_pos rfl]
    have etl : ((tl.map Prod.fst).filter
          (fun k => decide (r ∈ lookupGroup ((k0, v0) :: tl) k)))
        = ((tl.map Prod.fst).filter (fun k => decide (r ∈ lookupGroup tl k))) := by
      apply List.filter_congr
      intro k hk
      rw [lookupGroup_cons, if_neg (fun e : k0 = k => hnd.1 (by rw [e]; exact hk))]
    rw [List.filter_cons, List.map_cons, List.filter_cons, e0, etl]
    by_cases hr : r ∈ v0
    · simp [hr, ih hnd.2]
    · simp [hr, ih hnd.2]

lemma length_filter_mem_nodup (keys tags : List String)
    (h1 : keys.Nodup) (h2 : tags.Nodup) (h3 : ∀ t ∈ tags, t ∈ keys) :
    (keys.filter (fun k => decide (k ∈ tags))).length = tags.length := by
  have hnd : (keys.filter (fun k => decide (k ∈ tags))).Nodup := h1.filter _
  have hset : (keys.filter (fun k => decide (k ∈ tags))).toFinset = tags.toFinset := by
    ext x
    simp only [List.mem_toFinset, List.mem_filter, decide_eq_true_eq]
    exact ⟨fun hx => hx.2, fun hx => ⟨h3 x hx, hx⟩⟩
  rw [← List.toFinset_card_of_nodup hnd, hset, List.toFinset_card_of_nodup h2]

lemma length_filter_eq_single (keys : List String) (s : String)
    (h1 : keys.Nodup) (hs : s ∈ keys) :
    (keys.filter (fun k => decide (k = s))).length = 1 := by
  induction keys with
  | nil => cases hs
  | cons k0 t ih =>
    rw [List.nodup_cons] at h1
    rw [List.filter_cons]
    by_cases h : k0 = s
    · subst h
      have ht : t.filter (fun k => decide (k = k0)) = [] := by
        rw [List.filter_eq_nil_iff]
        intro x hx
        simp only [decide_eq_true_eq]
        exact fun e => h1.1 (e ▸ hx)
      simp [ht]
    · have hs' : s ∈ t := by
        rcases List.mem_cons.mp hs with e | h'
        · exact absurd e.symm h
        · exact h'
      simp [h, ih h1.2 hs']

/-- C7: a record with tags appears in exactly the product groups named
by its tags (one group per tag); an untagged record appears exactly in
the sentinel group; and every record appears in exactly one source
group. -/
theorem C7_grouping_completeness (l : List NewsItem) (r : NewsItem)
    (hr : r ∈ l) (hnd : r.tags.Nodup) :
    (∀ k, r ∈ lookupGroup (group_by_product l) k ↔
        (k ∈ r.tags ∨ (r.tags = [] ∧ k = unclassifiedKey)))
    ∧ ((group_by_product l).filter (fun p => decide (r ∈ p.2))).length
        = (if r.tags = [] then 1 else r.tags.length)
    ∧ (∀ k, r ∈ lookupGroup (group_by_source l) k ↔ k = r.source)
    ∧ ((group_by_source l).filter (fun p => decide (r ∈ p.2))).length = 1 := by
  have hmemP : ∀ k, r ∈ lookupGroup (group_by_product l) k ↔
      (k ∈ r.tags ∨ (r.tags = [] ∧ k = unclassifiedKey)) := by
    intro k
    rw [mem_group_by_product, ← effCount_ne_zero]
    exact ⟨fun h => h.2, fun h => ⟨hr, h⟩⟩
  have hmemS : ∀ k, r ∈ lookupGroup (group_by_source l) k ↔ k = r.source := by
    intro k
    rw [group_by_source_lookup, List.mem_filter]
    simp only [beq_iff_eq, hr, true_and]
    exact ⟨fun h => h.symm, fun h => h.symm⟩
  have hkeysP := group_by_product_keys_nodup l
  have hkeysS := group_by_source_keys_nodup l
  refine ⟨hmemP, ?_, hmemS, ?_⟩
  · rw [length_filter_entries (group_by_product l) r hkeysP]
    by_cases ht : r.tags = []
    · have hcongr : ((group_by_product l).map Prod.fst).filter
          (fun k => decide (r ∈ lookupGroup (group_by_product l) k))
          = ((group_by_product l).map Prod.fst).filter
            (fun k => decide (k = unclassifiedKey)) := by
        apply List.filter_congr
        intro k hk
        exact decide_eq_decide.mpr (by rw [hmemP k]; simp [ht])
      have hst : unclassifiedKey ∈ (group_by_product l).map Prod.fst :=
        mem_keys_of_lookupGroup_mem _ _ r ((hmemP unclassifiedKey).mpr (Or.inr ⟨ht, rfl⟩))
      rw [hcongr, length_filter_eq_single _ _ hkeysP hst, if_pos ht]
    · have hcongr : ((group_by_product l).map Prod.fst).filter
          (fun k => decide (r ∈ lookupGroup (group_by_product l) k))
          = ((group_by_product l).map Prod.fst).filter
            (fun k => decide (k ∈ r.tags)) := by
        apply List.filter_congr
        intro k hk
        exact decide_eq_decide.mpr (by rw [hmemP k]; simp [ht])
      have hsub : ∀ t ∈ r.tags, t ∈ (group_by_product l).map Prod.fst := fun t htag =>
        mem_keys_of_lookupGroup_mem _ _ r ((hmemP t).mpr (Or.inl htag))
      rw [hcongr, length_filter_mem_nodup _ _ hkeysP hnd hsub, if_neg ht]
  · rw [length_filter_entries (group_by_source l) r hkeysS]
    have hcongr : ((group_by_source l).map Prod.fst).filter
        (fun k => decide (r ∈ lookupGroup (group_by_source l) k))
        = ((group_by_source l).map Prod.fst).filter
          (fun k => decide (k = r.source)) := by
      apply List.filter_congr
      intro k hk
      exact decide_eq_decide.mpr (hmemS k)
    have hst : r.source ∈ (group_by_source l).map Prod.fst :=
      mem_keys_of_lookupGroup_mem _ _ r ((hmemS r.source).mpr rfl)
    rw [hcongr, length_filter_eq_single _ _ hkeysS hst]

/-- A concrete record with two tags, for the C7 witness. -/
def c7item : NewsItem := mkItem [] [] ("weibo") 1 0 ["Claude", "Cursor"] ""

/-- Witness for C7 on a one-record list with two tags. -/
theorem C7_grouping_completeness_witness :
    (∀ k, c7item ∈ lookupGroup (group_by_product [c7item]) k ↔
        (k ∈ c7item.tags ∨ (c7item.tags = [] ∧ k = unclassifiedKey)))
    ∧ ((group_by_product [c7item]).filter (fun p => decide (c7item ∈ p.2))).length
        = (if c7item.tags = [] then 1 else c7item.tags.length)
    ∧ (∀ k, c7item ∈ lookupGroup (group_by_source [c7item]) k ↔ k = c7item.source)
    ∧ ((group_by_source [c7item]).filter (fun p => decide (c7item ∈ p.2))).length = 1 :=
  C7_grouping_completeness [c7item] c7item (by simp) (by decide)

/-! ## Phase-2 candidate processing (C3) -/

lemma step_append (thr : ℚ) (item : NewsItem) (kept : List NewsItem)
    (h : ∀ k ∈ kept, similarity (normalize_title item.title) (normalize_title k.title) < thr) :
    step thr item kept = kept ++ [item] := by
  induction kept with
  | nil => rfl
  | cons k ks ih =>
    rw [step, if_neg (not_le.mpr (h k (List.mem_cons_self k ks)))]
    rw [ih (fun k' hk' => h k' (List.mem_cons_of_mem k hk'))]
    rfl

lemma step_cases (thr : ℚ) (item : NewsItem) (kept : List NewsItem) :
    ((∀ k ∈ kept, similarity (normalize_title item.title) (normalize_title k.title) < thr)
      ∧ step thr item kept = kept ++ [item])
    ∨ (∃ l1 k l2, kept = l1 ++ k :: l2
        ∧ (∀ k' ∈ l1, similarity (normalize_title item.title) (normalize_title k'.title) < thr)
        ∧ thr ≤ similarity (normalize_title item.title) (normalize_title k.title)
        ∧ step thr item kept
            = l1 ++ { k with tags := mergeTags k.tags item.tags } :: l2) := by
  induction kept with
  | nil => exact Or.inl ⟨by simp, rfl⟩
  | cons k ks ih =>
    by_cases h : thr ≤ similarity (normalize_title item.title) (normalize_title k.title)
    · refine Or.inr ⟨[], k, ks, rfl, by simp, h, ?_⟩
      rw [step, if_pos h]
      rfl
    · rcases ih with ⟨hall, heq⟩ | ⟨l1, k0, l2, hsplit, hl1, hk0, heq⟩
      · refine Or.inl ⟨?_, ?_⟩
        · intro k' hk'
          rcases List.mem_cons.mp hk' with e | hk'
          · exact e ▸ not_le.mp h
          · exact hall k' hk'
        · rw [step, if_neg h, heq]
          rfl
      · refine Or.inr ⟨k :: l1, k0, l2, by rw [hsplit]; rfl, ?_, hk0, ?_⟩
        · intro k' hk'
          rcases List.mem_cons.mp hk' with e | hk'
          · exact e ▸ not_le.mp h
          · exact hl1 k' hk'
        · rw [step, if_neg h, heq]
          rfl

lemma mergeTags_spec (kt ct : List String) :
    ∃ ext, mergeTags kt ct = kt ++ ext
      ∧ (∀ t ∈ ext, t ∈ ct ∧ t ∉ kt)
      ∧ (∀ t ∈ ct, t ∈ kt ++ ext) := by
  induction ct generalizing kt with
  | nil => exact ⟨[], by simp [mergeTags], by simp, by simp⟩
  | cons t ts ih =>
    by_cases h : t ∈ kt
    · obtain ⟨ext, he, hin, hcov⟩ := ih kt
      refine ⟨ext, ?_,
        fun x hx => ⟨List.mem_cons_of_mem t (hin x hx).1, (hin x hx).2⟩, ?_⟩
      · rw [mergeTags, List.foldl_cons, if_pos h]
        exact he
      · intro x hx
        rcases List.mem_cons.mp hx with e | hx
        · exact e ▸ List.mem_append_left ext h
        · exact hcov x hx
    · obtain ⟨ext, he, hin, hcov⟩ := ih (kt ++ [t])
      refine ⟨t :: ext, ?_, ?_, ?_⟩
      · rw [mergeTags, List.foldl_cons, if_neg h]
        rw [show mergeTags (kt ++ [t]) ts = ts.foldl
          (fun acc t => if t ∈ acc then acc else acc ++ [t]) (kt ++ [t]) from rfl] at he
        rw [he, List.append_assoc]
        rfl
      · intro x hx
        rcases List.mem_cons.mp hx with e | hx
        · subst e
          exact ⟨List.mem_cons_self _ _, h⟩
        · obtain ⟨hx1, hx2⟩ := hin x hx
          refine ⟨List.mem_cons_of_mem t hx1, fun hk => hx2 (List.mem_append_left [t] hk)⟩
      · intro x hx
        rcases List.mem_cons.mp hx with e | hx
        · subst e
          exact List.mem_append_right kt (List.mem_cons_self x ext)
        · have := hcov x hx
          rcases List.mem_append.mp this with hk | he'
          · rcases List.mem_append.mp hk with hk | ht
            · exact List.mem_append_left _ hk
            · rcases List.mem_singleton.mp ht with e
              exact e ▸ List.mem_append_right kt (List.mem_cons_self _ ext)
          · exact List.mem_append_right kt (List.mem_cons_of_mem t he')

/-- C3: in Phase-2, a candidate is appended as a new kept record exactly
when every kept record's normalized title is strictly below the
threshold; when some kept record reaches the threshold, the first such
kept record absorbs the candidate — the candidate is discarded and the
kept record's tags become its own tags followed by exactly the
candidate tags not already present. -/
theorem C3_fuzzy_merge_iff (thr : ℚ) (item : NewsItem) (kept : List NewsItem) :
    ((∀ k ∈ kept, similarity (normalize_title item.title) (normalize_title k.title) < thr) →
      step thr item kept = kept ++ [item])
    ∧ ((∃ k ∈ kept, thr ≤ similarity (normalize_title item.title) (normalize_title k.title)) →
      ∃ l1 k l2 ext, kept = l1 ++ k :: l2
        ∧ (∀ k' ∈ l1,
            similarity (normalize_title item.title) (normalize_title k'.title) < thr)
        ∧ thr ≤ similarity (normalize_title item.title) (normalize_title k.title)
        ∧ step thr item kept = l1 ++ { k with tags := k.tags ++ ext } :: l2
        ∧ (∀ t ∈ ext, t ∈ item.tags ∧ t ∉ k.tags)
        ∧ (∀ t ∈ item.tags, t ∈ k.tags ++ ext)) := by
  constructor
  · exact step_append thr item kept
  · intro h
    obtain ⟨k0, hk0, hsim⟩ := h
    rcases step_cases thr item kept with ⟨hall, _⟩ | ⟨l1, k, l2, hsplit, hl1, hk, heq⟩
    · exact absurd hsim (not_le.mpr (hall k0 hk0))
    · obtain ⟨ext, he, hin, hcov⟩ := mergeTags_spec k.tags item.tags
      exact ⟨l1, k, l2, ext, hsplit, hl1, hk, by rw [heq, he], hin, hcov⟩

/-- C3 witness candidate: normalized title `claude ai`, one tag. -/
def citemC3 : NewsItem := mkItem ("claude ai".toList) [] ("hackernews") 1 0 ["Cursor"] ""

/-- C3 witness kept record whose title also normalizes to `claude ai`. -/
def ckC3 : NewsItem := mkItem ("Claude AI!".toList) [] ("reddit") 9 0 ["Claude"] ""

/-- C3 witness kept record with an unrelated title. -/
def kfarC3 : NewsItem := mkItem ("zzz".toList) [] ("reddit") 9 0 [] ""

/-- Witness for C3: below the threshold the candidate is appended;
at or above the threshold it is absorbed with tag union. -/
theorem C3_fuzzy_merge_iff_witness :
    step defaultThreshold citemC3 [kfarC3] = [kfarC3] ++ [citemC3]
    ∧ (∃ l1 k l2 ext, ([ckC3] : List NewsItem) = l1 ++ k :: l2
        ∧ (∀ k' ∈ l1,
            similarity (normalize_title citemC3.title) (normalize_title k'.title)
              < defaultThreshold)
        ∧ defaultThreshold
            ≤ similarity (normalize_title citemC3.title) (normalize_title k.title)
        ∧ step defaultThreshold citemC3 [ckC3] = l1 ++ { k with tags := k.tags ++ ext } :: l2
        ∧ (∀ t ∈ ext, t ∈ citemC3.tags ∧ t ∉ k.tags)
        ∧ (∀ t ∈ citemC3.tags, t ∈ k.tags ++ ext)) := by
  constructor
  · apply (C3_fuzzy_merge_iff defaultThreshold citemC3 [kfarC3]).1
    intro k hk
    rw [List.mem_singleton] at hk
    subst hk
    have h1 : matchTotalF (9 + 3 + 1) (normalize_title citemC3.title)
        (normalize_title kfarC3.title) 0 9 0 3 = 0 := rfl
    have h2 : (normalize_title citemC3.title).length = 9 := rfl
    have h3 : (normalize_title kfarC3.title).length = 3 := rfl
    simp only [similarity, h2, h3, h1, defaultThreshold]
    norm_num
  · apply (C3_fuzzy_merge_iff defaultThreshold citemC3 [ckC3]).2
    have h1 : matchTotalF (9 + 9 + 1) (normalize_title citemC3.title)
        (normalize_title ckC3.title) 0 9 0 9 = 9 := rfl
    have h2 : (normalize_title citemC3.title).length = 9 := rfl
    have h3 : (normalize_title ckC3.title).length = 9 := rfl
    refine ⟨ckC3, List.mem_singleton.mpr rfl, ?_⟩
    simp only [similarity, h2, h3, h1, defaultThreshold]
    norm_num

/-! ## Frame property of deduplication (C10) -/

lemma setTags_self (x : NewsItem) : ({ x with tags := x.tags } : NewsItem) = x := rfl

lemma upsert_values_mem (m : List (List Char × NewsItem)) (key : List Char) (item : NewsItem) :
    ∀ v ∈ (upsert m key item).map Prod.snd, v ∈ m.map Prod.snd ∨ v = item := by
  induction m with
  | nil =>
    intro v hv
    rw [show upsert [] key item = [(key, item)] from rfl] at hv
    simp at hv
    exact Or.inr hv
  | cons hd rest ih =>
    obtain ⟨k0, v0⟩ := hd
    intro v hv
    rw [show upsert ((k0, v0) :: rest) key item
        = if k0 = key then
            (if engagement_score v0 < engagement_score item then (k0, item) else (k0, v0)) :: rest
          else (k0, v0) :: upsert rest key item from rfl] at hv
    by_cases hk : k0 = key
    · rw [if_pos hk] at hv
      by_cases hs : engagement_score v0 < engagement_score item
      · rw [if_pos hs] at hv
        rcases List.mem_cons.mp (List.mem_map.mp hv).choose_spec.1 with _ | _
        all_goals {
          rcases List.mem_map.mp hv with ⟨p, hp, rfl⟩
          rcases List.mem_cons.mp hp with e | hp
          · exact Or.inr (by rw [e])
          · exact Or.inl (List.mem_map.mpr ⟨p, List.mem_cons_of_mem _ hp, rfl⟩) }
      · rw [if_neg hs] at hv
        rcases List.mem_map.mp hv with ⟨p, hp, rfl⟩
        rcases List.mem_cons.mp hp with e | hp
        · exact Or.inl (List.mem_map.mpr ⟨p, by rw [e]; exact List.mem_cons_self _ _, rfl⟩)
        · exact Or.inl (List.mem_map.mpr ⟨p, List.mem_cons_of_mem _ hp, rfl⟩)
    · rw [if_neg hk] at hv
      rcases List.mem_map.mp hv with ⟨p, hp, rfl⟩
      rcases List.mem_cons.mp hp with e | hp
      · exact Or.inl (List.mem_map.mpr ⟨p, by rw [e]; exact List.mem_cons_self _ _, rfl⟩)
      · rcases ih p.2 (List.mem_map.mpr ⟨p, hp, rfl⟩) with h | h
        · exact Or.inl (List.mem_map.mp h |>.elim
            fun q hq => List.mem_map.mpr ⟨q, List.mem_cons_of_mem _ hq.1, hq.2⟩)
        · exact Or.inr h

lemma dedup_by_url_subset (l : List NewsItem) : ∀ r ∈ dedup_by_url l, r ∈ l := by
  suffices h : ∀ m, ∀ r ∈ (l.foldl (fun m item => upsert m (urlKey item) item) m).map Prod.snd,
      r ∈ m.map Prod.snd ∨ r ∈ l by
    intro r hr
    rcases h [] r hr with h' | h'
    · simp at h'
    · exact h'
  induction l with
  | nil =>
    intro m r hr
    exact Or.inl hr
  | cons a t ih =>
    intro m r hr
    rcases ih (upsert m (urlKey a) a) r hr with h | h
    · rcases upsert_values_mem m (urlKey a) a r h with h' | h'
      · exact Or.inl h'
      · exact Or.inr (h' ▸ List.mem_cons_self a t)
    · exact Or.inr (List.mem_cons_of_mem a h)

lemma step_mem (thr : ℚ) (item : NewsItem) (kept : List NewsItem) :
    ∀ r ∈ step thr item kept,
      r ∈ kept ∨ r = item ∨ ∃ k ∈ kept, r = { k with tags := mergeTags k.tags item.tags } := by
  intro r hr
  rcases step_cases thr item kept with ⟨_, heq⟩ | ⟨l1, k, l2, hsplit, _, _, heq⟩
  · rw [heq] at hr
    rcases List.mem_append.mp hr with h | h
    · exact Or.inl h
    · exact Or.inr (Or.inl (List.mem_singleton.mp h))
  · rw [heq] at hr
    rcases List.mem_append.mp hr with h | h
    · exact Or.inl (hsplit ▸ List.mem_append_left _ h)
    · rcases List.mem_cons.mp h with e | h
      · exact Or.inr (Or.inr ⟨k, hsplit ▸ List.mem_append_right _ (List.mem_cons_self k l2), e⟩)
      · exact Or.inl (hsplit ▸ List.mem_append_right _ (List.mem_cons_of_mem k h))

lemma dedup_by_title_origin (thr : ℚ) (items : List NewsItem) :
    ∀ r ∈ dedup_by_title thr items, ∃ r0 ∈ items, r = { r0 with tags := r.tags } := by
  have hmain : ∀ (rest kept : List NewsItem),
      (∀ k ∈ kept, ∃ r0 ∈ items, k = { r0 with tags := k.tags }) →
      (∀ x ∈ rest, x ∈ items) →
      ∀ r ∈ rest.foldl (fun kept item => step thr item kept) kept,
        ∃ r0 ∈ items, r = { r0 with tags := r.tags } := by
    intro rest
    induction rest with
    | nil =>
      intro kept hkept _ r hr
      exact hkept r hr
    | cons a rs ih =>
      intro kept hkept hrest r hr
      rw [List.foldl_cons] at hr
      refine ih (step thr a kept) ?_ (fun x hx => hrest x (List.mem_cons_of_mem a hx)) r hr
      intro k hk
      rcases step_mem thr a kept k hk with h | h | h
      · exact hkept k h
      · subst h
        exact ⟨k, hrest k (List.mem_cons_self _ _), (setTags_self k).symm⟩
      · obtain ⟨k0, hk0, he⟩ := h
        obtain ⟨r0, hr0, he0⟩ := hkept k0 hk0
        refine ⟨r0, hr0, ?_⟩
        rw [he, he0]
  exact hmain (items.mergeSort scoreLe) []
    (by intro k hk; simp at hk)
    (fun x hx => List.mem_mergeSort.mp hx)

/-- C10: every record in the output of `deduplicate` is one of the
input records with every field except `tags` unchanged; in particular
the surviving `url` keeps its original un-normalized value. -/
theorem C10_frame_only_tags (thr : ℚ) (l : List NewsItem) (r : NewsItem)
    (h : r ∈ deduplicate thr l) :
    ∃ r0 ∈ l, r = { r0 with tags := r.tags } ∧ r.url = r0.url := by
  obtain ⟨r1, hr1, he⟩ := dedup_by_title_origin thr (dedup_by_url l) r h
  have hr1l : r1 ∈ l := dedup_by_url_subset l r1 hr1
  refine ⟨r1, hr1l, he, ?_⟩
  rw [he]

/-- A concrete record whose url carries a tracking parameter, for the
C10 witness. -/
def c10item : NewsItem :=
  mkItem ("hello".toList) ("https://x.com/p?utm_source=y".toList) ("reddit") 3 1 ["Claude"] "A"

/-- Witness for C10: the single surviving record is the input record
itself, with its raw (un-normalized) url. -/
theorem C10_frame_only_tags_witness :
    ∃ r0 ∈ [c10item], c10item = { r0 with tags := c10item.tags }
      ∧ c10item.url = r0.url := by
  have e1 : dedup_by_url [c10item] = [c10item] := rfl
  have e2 : deduplicate defaultThreshold [c10item] = [c10item] := by
    show dedup_by_title defaultThreshold (dedup_by_url [c10item]) = [c10item]
    rw [e1, dedup_by_title, List.mergeSort_singleton]
    rfl
  exact C10_frame_only_tags defaultThreshold [c10item] c10item
    (by rw [e2]; exact List.mem_singleton.mpr rfl)

/-! ## Idempotence of deduplication (C1) -/

lemma urlKey_setTags (k : NewsItem) (t : List String) :
    urlKey { k with tags := t } = urlKey k := rfl

lemma score_setTags (k : NewsItem) (t : List String) :
    engagement_score { k with tags := t } = engagement_score k := rfl

lemma ntitle_setTags (k : NewsItem) (t : List String) :
    normalize_title ({ k with tags := t } : NewsItem).title = normalize_title k.title := rfl

lemma upsert_keys (m : List (List Char × NewsItem)) (key : List Char) (item : NewsItem) :
    (upsert m key item).map Prod.fst =
      if key ∈ m.map Prod.fst then m.map Prod.fst else m.map Prod.fst ++ [key] := by
  induction m with
  | nil => simp [upsert]
  | cons hd rest ih =>
    obtain ⟨k0, v0⟩ := hd
    rw [show upsert ((k0, v0) :: rest) key item
        = if k0 = key then
            (if engagement_score v0 < engagement_score item then (k0, item) else (k0, v0)) :: rest
          else (k0, v0) :: upsert rest key item from rfl]
    by_cases hk : k0 = key
    · subst hk
      rw [if_pos rfl]
      have hfst : (if engagement_score v0 < engagement_score item
          then (k0, item) else (k0, v0)).1 = k0 := by
        by_cases hs : engagement_score v0 < engagement_score item
        · rw [if_pos hs]
        · rw [if_neg hs]
      rw [List.map_cons, hfst, List.map_cons,
        if_pos (List.mem_cons_self k0 (rest.map Prod.fst))]
    · rw [if_neg hk, List.map_cons, List.map_cons, ih]
      by_cases hm : key ∈ rest.map Prod.fst
      · rw [if_pos hm, if_pos (List.mem_cons_of_mem _ hm)]
      · rw [if_neg hm, if_neg (fun hmem => (List.mem_cons.mp hmem).elim
          (fun e => hk e.symm) hm)]
        rw [List.cons_append]

lemma upsert_keys_nodup (m : List (List Char × NewsItem)) (key : List Char) (item : NewsItem)
    (h : (m.map Prod.fst).Nodup) : ((upsert m key item).map Prod.fst).Nodup := by
  rw [upsert_keys]
  by_cases hm : key ∈ m.map Prod.fst
  · rw [if_pos hm]
    exact h
  · rw [if_neg hm, List.nodup_append]
    refine ⟨h, List.nodup_singleton key, ?_⟩
    intro a ha hb
    rw [List.mem_singleton] at hb
    exact hm (hb ▸ ha)

lemma upsert_kv (m : List (List Char × NewsItem)) (key : List Char) (item : NewsItem)
    (hm : ∀ p ∈ m, urlKey p.2 = p.1) (hk : urlKey item = key) :
    ∀ p ∈ upsert m key item, urlKey p.2 = p.1 := by
  induction m with
  | nil =>
    intro p hp
    rw [show upsert [] key item = [(key, item)] from rfl] at hp
    rcases List.mem_singleton.mp hp with e
    rw [e]
    exact hk
  | cons hd rest ih =>
    obtain ⟨k0, v0⟩ := hd
    intro p hp
    rw [show upsert ((k0, v0) :: rest) key item
        = if k0 = key then
            (if engagement_score v0 < engagement_score item then (k0, item) else (k0, v0)) :: rest
          else (k0, v0) :: upsert rest key item from rfl] at hp
    by_cases hke : k0 = key
    · rw [if_pos hke] at hp
      rcases List.mem_cons.mp hp with e | hmem
      · by_cases hs : engagement_score v0 < engagement_score item
        · rw [if_pos hs] at e
          rw [e, hke]
          exact hk
        · rw [if_neg hs] at e
          rw [e]
          exact hm (k0, v0) (List.mem_cons_self _ _)
      · exact hm p (List.mem_cons_of_mem _ hmem)
    · rw [if_neg hke] at hp
      rcases List.mem_cons.mp hp with e | hmem
      · rw [e]
        exact hm (k0, v0) (List.mem_cons_self _ _)
      · exact ih (fun q hq => hm q (List.mem_cons_of_mem _ hq)) p hmem

lemma dedup_by_url_fold_inv (l : List NewsItem) :
    ∀ m, (∀ p ∈ m, urlKey p.2 = p.1) → (m.map Prod.fst).Nodup →
      (∀ p ∈ l.foldl (fun m item => upsert m (urlKey item) item) m, urlKey p.2 = p.1)
      ∧ ((l.foldl (fun m item => upsert m (urlKey item) item) m).map Prod.fst).Nodup := by
  induction l with
  | nil =>
    intro m h1 h2
    exact ⟨h1, h2⟩
  | cons a t ih =>
    intro m h1 h2
    rw [List.foldl_cons]
    exact ih (upsert m (urlKey a) a) (upsert_kv m (urlKey a) a h1 rfl)
      (upsert_keys_nodup m (urlKey a) a h2)

lemma dedup_by_url_urlKeys_nodup (l : List NewsItem) :
    ((dedup_by_url l).map urlKey).Nodup := by
  obtain ⟨hkv, hnd⟩ := dedup_by_url_fold_inv l [] (by simp) (by simp)
  have he : (dedup_by_url l).map urlKey
      = (l.foldl (fun m item => upsert m (urlKey item) item) []).map Prod.fst := by
    rw [show dedup_by_url l
        = (l.foldl (fun m item => upsert m (urlKey item) item) []).map Prod.snd from rfl]
    rw [List.map_map]
    exact List.map_congr_left (fun p hp => hkv p hp)
  rw [he]
  exact hnd

lemma upsert_absent (m : List (List Char × NewsItem)) (key : List Char) (item : NewsItem)
    (h : key ∉ m.map Prod.fst) : upsert m key item = m ++ [(key, item)] := by
  induction m with
  | nil => rfl
  | cons hd rest ih =>
    obtain ⟨k0, v0⟩ := hd
    rw [List.map_cons, List.mem_cons] at h
    rw [show upsert ((k0, v0) :: rest) key item
        = if k0 = key then
            (if engagement_score v0 < engagement_score item then (k0, item) else (k0, v0)) :: rest
          else (k0, v0) :: upsert rest key item from rfl]
    rw [if_neg (fun e => h (Or.inl e.symm))]
    rw [ih (fun e => h (Or.inr e))]
    rfl

lemma dedup_by_url_id (l : List NewsItem) (h : (l.map urlKey).Nodup) :
    dedup_by_url l = l := by
  suffices hfold : ∀ (t : List NewsItem) m, (∀ k ∈ t.map urlKey, k ∉ m.map Prod.fst) →
      (t.map urlKey).Nodup →
      t.foldl (fun m item => upsert m (urlKey item) item) m
        = m ++ t.map (fun r => (urlKey r, r)) by
    rw [show dedup_by_url l
        = (l.foldl (fun m item => upsert m (urlKey item) item) []).map Prod.snd from rfl]
    rw [hfold l [] (by simp) h]
    rw [List.nil_append, List.map_map]
    rw [show (Prod.snd ∘ fun r : NewsItem => (urlKey r, r)) = id from funext fun r => rfl]
    exact List.map_id l
  intro t
  induction t with
  | nil =>
    intro m _ _
    simp
  | cons a ts ih =>
    intro m hab hnd
    rw [List.map_cons, List.nodup_cons] at hnd
    rw [List.foldl_cons, upsert_absent m (urlKey a) a (hab (urlKey a) (by simp))]
    rw [ih (m ++ [(urlKey a, a)]) ?_ hnd.2]
    · simp
    · intro k hkt
      rw [List.map_append]
      rw [List.mem_append]
      rintro (hk1 | hk2)
      · exact hab k (List.mem_cons_of_mem _ hkt) hk1
      · simp only [List.map_cons, List.map_nil, List.mem_singleton] at hk2
        exact hnd.1 (hk2 ▸ hkt)

lemma pairwise_of_map_eq {β : Type} (f : NewsItem → β) (R : β → β → Prop)
    {l1 l2 : List NewsItem} (h : l1.map f = l2.map f)
    (hp : l2.Pairwise (fun a b => R (f a) (f b))) :
    l1.Pairwise (fun a b => R (f a) (f b)) := by
  have h2 : (l2.map f).Pairwise R := (List.pairwise_map).mpr hp
  rw [← h] at h2
  exact (List.pairwise_map).mp h2

lemma step_map_eq_of_merge {β : Type} (f : NewsItem → β)
    (hf : ∀ k t, f { k with tags := t } = f k)
    (item : NewsItem) (l1 l2 : List NewsItem) (k : NewsItem) :
    (l1 ++ { k with tags := mergeTags k.tags item.tags } :: l2).map f
      = (l1 ++ k :: l2).map f := by
  rw [List.map_append, List.map_append, List.map_cons, List.map_cons, hf]

lemma foldl_step_map_sublist {β : Type} (f : NewsItem → β)
    (hf : ∀ k t, f { k with tags := t } = f k) (thr : ℚ) :
    ∀ (rest kept : List NewsItem),
      ∃ sub, (rest.foldl (fun kept item => step thr item kept) kept).map f
          = kept.map f ++ sub ∧ List.Sublist sub (rest.map f) := by
  intro rest
  induction rest with
  | nil =>
    intro kept
    exact ⟨[], by simp, by simp⟩
  | cons a rs ih =>
    intro kept
    obtain ⟨sub, he, hs⟩ := ih (step thr a kept)
    rw [List.foldl_cons]
    rcases step_cases thr a kept with ⟨_, heq⟩ | ⟨l1, k, l2, hsplit, _, _, heq⟩
    · refine ⟨f a :: sub, ?_, ?_⟩
      · rw [he, heq, List.map_append, List.append_assoc]
        rfl
      · rw [List.map_cons]
        exact hs.cons₂ (f a)
    · refine ⟨sub, ?_, hs.cons (f a)⟩
      rw [he, heq, hsplit, step_map_eq_of_merge f hf a l1 l2 k, ← hsplit]

lemma foldl_step_sorted (thr : ℚ) :
    ∀ (rest kept : List NewsItem),
      kept.Pairwise (fun a b => engagement_score b ≤ engagement_score a) →
      (∀ k ∈ kept, ∀ x ∈ rest, engagement_score x ≤ engagement_score k) →
      rest.Pairwise (fun a b => engagement_score b ≤ engagement_score a) →
      (rest.foldl (fun kept item => step thr item kept) kept).Pairwise
        (fun a b => engagement_score b ≤ engagement_score a) := by
  intro rest
  induction rest with
  | nil =>
    intro kept h _ _
    exact h
  | cons a rs ih =>
    intro kept hkept hcross hrest
    rw [List.foldl_cons]
    apply ih (step thr a kept)
    · rcases step_cases thr a kept with ⟨_, heq⟩ | ⟨l1, k, l2, hsplit, _, _, heq⟩
      · rw [heq]
        apply List.pairwise_append.mpr
        refine ⟨hkept, List.pairwise_singleton _ _, ?_⟩
        intro x hx y hy
        rw [List.mem_singleton] at hy
        subst hy
        exact hcross x hx y (List.mem_cons_self _ _)
      · rw [heq]
        exact pairwise_of_map_eq engagement_score (fun x y => y ≤ x)
          (by rw [step_map_eq_of_merge engagement_score score_setTags a l1 l2 k, ← hsplit])
          (hsplit ▸ hkept)
    · intro k hk x hx
      rcases step_mem thr a kept k hk with h | h | h
      · exact hcross k h x (List.mem_cons_of_mem a hx)
      · subst h
        exact List.rel_of_pairwise_cons hrest hx
      · obtain ⟨k0, hk0, he⟩ := h
        rw [he, score_setTags]
        exact hcross k0 hk0 x (List.mem_cons_of_mem a hx)
    · exact hrest.of_cons

lemma foldl_step_pairwise_dissim (thr : ℚ) :
    ∀ (rest kept : List NewsItem),
      kept.Pairwise (fun a b =>
        similarity (normalize_title b.title) (normalize_title a.title) < thr) →
      (rest.foldl (fun kept item => step thr item kept) kept).Pairwise (fun a b =>
        similarity (normalize_title b.title) (normalize_title a.title) < thr) := by
  intro rest
  induction rest with
  | nil =>
    intro kept h
    exact h
  | cons a rs ih =>
    intro kept hkept
    rw [List.foldl_cons]
    apply ih (step thr a kept)
    rcases step_cases thr a kept with ⟨hall, heq⟩ | ⟨l1, k, l2, hsplit, _, _, heq⟩
    · rw [heq]
      apply List.pairwise_append.mpr
      refine ⟨hkept, List.pairwise_singleton _ _, ?_⟩
      intro x hx y hy
      rw [List.mem_singleton] at hy
      subst hy
      exact hall x hx
    · rw [heq]
      exact pairwise_of_map_eq (fun r => normalize_title r.title)
        (fun x y => similarity y x < thr)
        (by rw [step_map_eq_of_merge (fun r => normalize_title r.title)
          (fun k t => rfl) a l1 l2 k, ← hsplit])
        (hsplit ▸ hkept)

lemma foldl_step_id (thr : ℚ) :
    ∀ (rest kept : List NewsItem),
      (kept ++ rest).Pairwise (fun a b =>
        similarity (normalize_title b.title) (normalize_title a.title) < thr) →
      rest.foldl (fun kept item => step thr item kept) kept = kept ++ rest := by
  intro rest
  induction rest with
  | nil =>
    intro kept _
    simp
  | cons a rs ih =>
    intro kept hp
    have hall : ∀ k ∈ kept, similarity (normalize_title a.title) (normalize_title k.title)
        < thr := by
      intro k hk
      exact (List.pairwise_append.mp hp).2.2 k hk a (List.mem_cons_self _ _)
    rw [List.foldl_cons, step_append thr a kept hall]
    have hp2 : ((kept ++ [a]) ++ rs).Pairwise (fun a b =>
        similarity (normalize_title b.title) (normalize_title a.title) < thr) := by
      rw [List.append_assoc, List.singleton_append]
      exact hp
    rw [ih (kept ++ [a]) hp2, List.append_assoc, List.singleton_append]

/-- Idempotence of the full two-phase deduplication, any threshold. -/
lemma deduplicate_idem (thr : ℚ) (l : List NewsItem) :
    deduplicate thr (deduplicate thr l) = deduplicate thr l := by
  have hmid : ((dedup_by_url l).map urlKey).Nodup := dedup_by_url_urlKeys_nodup l
  have hsorted0 : (((dedup_by_url l).mergeSort scoreLe).map urlKey).Nodup := by
    have hperm := (List.mergeSort_perm (dedup_by_url l) scoreLe).map urlKey
    exact hperm.nodup_iff.mpr hmid
  obtain ⟨sub, hsubeq, hsub⟩ := foldl_step_map_sublist urlKey urlKey_setTags thr
    ((dedup_by_url l).mergeSort scoreLe) []
  have hout_nodup : ((deduplicate thr l).map urlKey).Nodup := by
    rw [show deduplicate thr l
        = ((dedup_by_url l).mergeSort scoreLe).foldl
            (fun kept item => step thr item kept) [] from rfl]
    rw [hsubeq, show List.map urlKey ([] : List NewsItem) = [] from rfl, List.nil_append]
    exact hsub.nodup hsorted0
  have hout_sorted : (deduplicate thr l).Pairwise
      (fun a b => engagement_score b ≤ engagement_score a) := by
    rw [show deduplicate thr l
        = ((dedup_by_url l).mergeSort scoreLe).foldl
            (fun kept item => step thr item kept) [] from rfl]
    apply foldl_step_sorted thr _ [] (by simp) (by simp)
    exact (List.sorted_mergeSort scoreLe_trans scoreLe_total (dedup_by_url l)).imp
      (fun h => of_decide_eq_true h)
  have hout_dissim : (deduplicate thr l).Pairwise (fun a b =>
      similarity (normalize_title b.title) (normalize_title a.title) < thr) := by
    rw [show deduplicate thr l
        = ((dedup_by_url l).mergeSort scoreLe).foldl
            (fun kept item => step thr item kept) [] from rfl]
    exact foldl_step_pairwise_dissim thr _ [] (by simp)
  show dedup_by_title thr (dedup_by_url (deduplicate thr l)) = deduplicate thr l
  rw [dedup_by_url_id _ hout_nodup]
  show ((deduplicate thr l).mergeSort scoreLe).foldl
      (fun kept item => step thr item kept) [] = deduplicate thr l
  have hsort2 : List.Pairwise (fun a b => scoreLe a b = true) (deduplicate thr l) :=
    hout_sorted.imp (fun h => decide_eq_true h)
  rw [List.mergeSort_of_sorted hsort2]
  have := foldl_step_id thr (deduplicate thr l) [] (by simpa using hout_dissim)
  simpa using this

/-- C1: running the full two-phase deduplication (default threshold
0.75) on its own output returns that output unchanged. -/
theorem C1_deduplicate_idempotent (l : List NewsItem) :
    deduplicate defaultThreshold (deduplicate defaultThreshold l)
      = deduplicate defaultThreshold l :=
  deduplicate_idem defaultThreshold l

/-! ## URL normalization under single-parameter variation (C2) -/

lemma dropPrefix?_length (p : List Char) :
    ∀ l r, dropPrefix? p l = some r → r.length + p.length = l.length := by
  induction p with
  | nil =>
    intro l r h
    rw [show dropPrefix? [] l = some l from rfl] at h
    cases h
    simp
  | cons p ps ih =>
    intro l r h
    cases l with
    | nil => cases h
    | cons c cs =>
      rw [show dropPrefix? (p :: ps) (c :: cs)
          = if c = p then dropPrefix? ps cs else none from rfl] at h
      by_cases hc : c = p
      · rw [if_pos hc] at h
        have := ih cs r h
        simp only [List.length_cons]
        omega
      · rw [if_neg hc] at h
        cases h

lemma dropPrefix?_self_append (p r : List Char) : dropPrefix? p (p ++ r) = some r := by
  induction p with
  | nil => rfl
  | cons c cs ih =>
    rw [List.cons_append]
    rw [show dropPrefix? (c :: cs) (c :: (cs ++ r))
        = if c = c then dropPrefix? cs (cs ++ r) else none from rfl]
    rw [if_pos rfl, ih]

lemma dropPrefix?_append_some (p : List Char) :
    ∀ l r z, dropPrefix? p l = some r → dropPrefix? p (l ++ z) = some (r ++ z) := by
  induction p with
  | nil =>
    intro l r z h
    rw [show dropPrefix? [] l = some l from rfl] at h
    cases h
    rfl
  | cons c cs ih =>
    intro l r z h
    cases l with
    | nil => cases h
    | cons d ds =>
      rw [show dropPrefix? (c :: cs) (d :: ds)
          = if d = c then dropPrefix? cs ds else none from rfl] at h
      by_cases hd : d = c
      · rw [if_pos hd] at h
        rw [List.cons_append]
        rw [show dropPrefix? (c :: cs) (d :: (ds ++ z))
            = if d = c then dropPrefix? cs (ds ++ z) else none from rfl]
        rw [if_pos hd]
        exact ih ds r z h
      · rw [if_neg hd] at h
        cases h

/-- The head of `z` is neither a word character nor `=` (true of `?`,
`&` and `/`). -/
def GoodHead (z : List Char) : Prop :=
  ∀ c cs, z = c :: cs → isWordChar c = false ∧ c ≠ '='

lemma dropPrefix?_append_none (p : List Char)
    (hp : ∀ c ∈ p, isWordChar c = true ∨ c = '=') (z : List Char) (hz : GoodHead z) :
    ∀ l, dropPrefix? p l = none → dropPrefix? p (l ++ z) = none := by
  induction p with
  | nil =>
    intro l h
    cases h
  | cons c cs ih =>
    intro l h
    cases l with
    | nil =>
      rw [List.nil_append]
      cases z with
      | nil => rfl
      | cons d ds =>
        rw [show dropPrefix? (c :: cs) (d :: ds)
            = if d = c then dropPrefix? cs ds else none from rfl]
        rw [if_neg ?_]
        intro e
        obtain ⟨hw, he⟩ := hz d ds rfl
        rcases hp c (List.mem_cons_self _ _) with hc | hc
        · rw [e, hc] at hw
          cases hw
        · exact he (e.trans hc)
    | cons d ds =>
      rw [show dropPrefix? (c :: cs) (d :: ds)
          = if d = c then dropPrefix? cs ds else none from rfl] at h
      rw [List.cons_append]
      rw [show dropPrefix? (c :: cs) (d :: (ds ++ z))
          = if d = c then dropPrefix? cs (ds ++ z) else none from rfl]
      by_cases hd : d = c
      · rw [if_pos hd] at h
        rw [if_pos hd]
        exact ih (fun x hx => hp x (List.mem_cons_of_mem _ hx)) ds h
      · rw [if_neg hd]

lemma matchAfterUtm_some_shape (t v : List Char) (h : matchAfterUtm t = some v) :
    t.takeWhile isWordChar ≠ [] ∧ t.dropWhile isWordChar = '=' :: v := by
  unfold matchAfterUtm at h
  by_cases hc : t.takeWhile isWordChar ≠ [] ∧ (t.dropWhile isWordChar).head? = some '='
  · rw [if_pos hc] at h
    cases h
    refine ⟨hc.1, ?_⟩
    cases hd : t.dropWhile isWordChar with
    | nil =>
      rw [hd] at hc
      simp at hc
    | cons d t' =>
      have h2 := hc.2
      rw [hd] at h2
      simp only [List.head?_cons, Option.some.injEq] at h2
      rw [h2]
      rfl
  · rw [if_neg hc] at h
    cases h

lemma matchAfterUtm_append_some (t v z : List Char) (h : matchAfterUtm t = some v) :
    matchAfterUtm (t ++ z) = some (v ++ z) := by
  obtain ⟨hw, hd⟩ := matchAfterUtm_some_shape t v h
  have hwall : ∀ c ∈ t.takeWhile isWordChar, isWordChar c = true :=
    fun c hc => List.mem_takeWhile_imp hc
  have ht : t ++ z = t.takeWhile isWordChar ++ ('=' :: (v ++ z)) := by
    conv_lhs => rw [← List.takeWhile_append_dropWhile isWordChar t]
    rw [hd, List.append_assoc]
    rfl
  have htw : (t ++ z).takeWhile isWordChar = t.takeWhile isWordChar := by
    rw [ht, List.takeWhile_append_of_pos hwall,
      List.takeWhile_cons_of_neg (by rw [show isWordChar '=' = false from rfl]; simp),
      List.append_nil]
  have hdw : (t ++ z).dropWhile isWordChar = '=' :: (v ++ z) := by
    rw [ht, List.dropWhile_append_of_pos hwall,
      List.dropWhile_cons_of_neg (by rw [show isWordChar '=' = false from rfl]; simp)]
  unfold matchAfterUtm
  rw [if_pos ⟨by rw [htw]; exact hw, by rw [hdw]; rfl⟩, hdw]
  rfl

lemma head_dropWhile_false (p : Char → Bool) (t : List Char) (d : Char) (t' : List Char)
    (h : t.dropWhile p = d :: t') : p d = false := by
  have hh := List.head?_dropWhile_not p t
  rw [h] at hh
  simpa using hh

lemma matchAfterUtm_append_none (t z : List Char) (hz : GoodHead z)
    (h : matchAfterUtm t = none) : matchAfterUtm (t ++ z) = none := by
  unfold matchAfterUtm at h
  by_cases hc : t.takeWhile isWordChar ≠ [] ∧ (t.dropWhile isWordChar).head? = some '='
  · rw [if_pos hc] at h
    cases h
  · unfold matchAfterUtm
    rw [if_neg ?_]
    rw [not_and_or] at hc
    rw [not_and_or]
    rcases hc with hc | hc
    · left
      rw [not_not] at hc
      cases t with
      | nil =>
        rw [List.nil_append]
        cases z with
        | nil => simp
        | cons c cs =>
          obtain ⟨hcw, _⟩ := hz c cs rfl
          rw [not_not, List.takeWhile_cons_of_neg (by rw [hcw]; simp)]
      | cons d ds =>
        have hdw : isWordChar d = false := by
          by_cases hdd : isWordChar d = true
          · rw [List.takeWhile_cons_of_pos hdd] at hc
            cases hc
          · simpa using hdd
        rw [List.cons_append, not_not,
          List.takeWhile_cons_of_neg (by rw [hdw]; simp)]
    · right
      have hsplit : t ++ z = t.takeWhile isWordChar ++ (t.dropWhile isWordChar ++ z) := by
        rw [← List.append_assoc, List.takeWhile_append_dropWhile]
      have hwall : ∀ c ∈ t.takeWhile isWordChar, isWordChar c = true :=
        fun c hcw => List.mem_takeWhile_imp hcw
      cases hdt : t.dropWhile isWordChar with
      | nil =>
        rw [hsplit, hdt, List.nil_append, List.dropWhile_append_of_pos hwall]
        cases z with
        | nil => simp
        | cons c cs =>
          obtain ⟨hcw, hce⟩ := hz c cs rfl
          rw [List.dropWhile_cons_of_neg (by rw [hcw]; simp)]
          simp only [List.head?_cons, Option.some.injEq]
          exact fun e => hce e
      | cons d t' =>
        have hdw : isWordChar d = false := head_dropWhile_false isWordChar t d t' hdt
        rw [hsplit, hdt, List.dropWhile_append_of_pos hwall, List.cons_append,
          List.dropWhile_cons_of_neg (by rw [hdw]; simp)]
        simp only [List.head?_cons, Option.some.injEq]
        intro e
        rw [hdt] at hc
        simp only [List.head?_cons, Option.some.injEq] at hc
        exact hc e

lemma utm_chars : ∀ c ∈ utmLit, isWordChar c = true ∨ c = '=' := by decide

lemma litKeys_chars : ∀ k ∈ litKeys, ∀ c ∈ k ++ ['='], isWordChar c = true ∨ c = '=' := by
  decide

lemma matchLit_append_some (ks : List (List Char))
    (hk : ∀ k ∈ ks, ∀ c ∈ k ++ ['='], isWordChar c = true ∨ c = '=')
    (z : List Char) (hz : GoodHead z) :
    ∀ l v, matchLit ks l = some v → matchLit ks (l ++ z) = some (v ++ z) := by
  induction ks with
  | nil =>
    intro l v h
    cases h
  | cons k ks ih =>
    intro l v h
    cases hd : dropPrefix? (k ++ ['=']) l with
    | some r =>
      simp only [matchLit, hd] at h
      cases h
      simp only [matchLit, dropPrefix?_append_some (k ++ ['=']) l v z hd]
    | none =>
      simp only [matchLit, hd] at h
      simp only [matchLit,
        dropPrefix?_append_none (k ++ ['=']) (hk k (List.mem_cons_self _ _)) z hz l hd]
      exact ih (fun k' hk' => hk k' (List.mem_cons_of_mem _ hk')) l v h

lemma matchLit_append_none (ks : List (List Char))
    (hk : ∀ k ∈ ks, ∀ c ∈ k ++ ['='], isWordChar c = true ∨ c = '=')
    (z : List Char) (hz : GoodHead z) :
    ∀ l, matchLit ks l = none → matchLit ks (l ++ z) = none := by
  induction ks with
  | nil =>
    intro l _
    rfl
  | cons k ks ih =>
    intro l h
    cases hd : dropPrefix? (k ++ ['=']) l with
    | some r =>
      simp only [matchLit, hd] at h
      cases h
    | none =>
      simp only [matchLit, hd] at h
      simp only [matchLit,
        dropPrefix?_append_none (k ++ ['=']) (hk k (List.mem_cons_self _ _)) z hz l hd]
      exact ih (fun k' hk' => hk k' (List.mem_cons_of_mem _ hk')) l h

lemma matchKeyEq_append_some (z : List Char) (hz : GoodHead z) (l v : List Char)
    (h : matchKeyEq l = some v) : matchKeyEq (l ++ z) = some (v ++ z) := by
  cases hd : dropPrefix? utmLit l with
  | some t =>
    have hd2 := dropPrefix?_append_some utmLit l t z hd
    cases hm : matchAfterUtm t with
    | some w =>
      simp only [matchKeyEq, hd, hm] at h
      cases h
      simp only [matchKeyEq, hd2, matchAfterUtm_append_some t v z hm]
    | none =>
      simp only [matchKeyEq, hd, hm] at h
      simp only [matchKeyEq, hd2, matchAfterUtm_append_none t z hz hm]
      exact matchLit_append_some litKeys litKeys_chars z hz l v h
  | none =>
    simp only [matchKeyEq, hd] at h
    simp only [matchKeyEq, dropPrefix?_append_none utmLit utm_chars z hz l hd]
    exact matchLit_append_some litKeys litKeys_chars z hz l v h

lemma matchKeyEq_append_none (z : List Char) (hz : GoodHead z) (l : List Char)
    (h : matchKeyEq l = none) : matchKeyEq (l ++ z) = none := by
  cases hd : dropPrefix? utmLit l with
  | some t =>
    have hd2 := dropPrefix?_append_some utmLit l t z hd
    cases hm : matchAfterUtm t with
    | some w =>
      simp only [matchKeyEq, hd, hm] at h
      cases h
    | none =>
      simp only [matchKeyEq, hd, hm] at h
      simp only [matchKeyEq, hd2, matchAfterUtm_append_none t z hz hm]
      exact matchLit_append_none litKeys litKeys_chars z hz l h
  | none =>
    simp only [matchKeyEq, hd] at h
    simp only [matchKeyEq, dropPrefix?_append_none utmLit utm_chars z hz l hd]
    exact matchLit_append_none litKeys litKeys_chars z hz l h

lemma matchLit_length (ks : List (List Char)) :
    ∀ l v, matchLit ks l = some v → v.length ≤ l.length := by
  induction ks with
  | nil =>
    intro l v h
    cases h
  | cons k ks ih =>
    intro l v h
    cases hd : dropPrefix? (k ++ ['=']) l with
    | some r =>
      simp only [matchLit, hd] at h
      cases h
      have := dropPrefix?_length (k ++ ['=']) l v hd
      omega
    | none =>
      simp only [matchLit, hd] at h
      exact ih l v h

lemma matchKeyEq_length (l v : List Char) (h : matchKeyEq l = some v) :
    v.length ≤ l.length := by
  cases hd : dropPrefix? utmLit l with
  | some t =>
    cases hm : matchAfterUtm t with
    | some w =>
      simp only [matchKeyEq, hd, hm] at h
      cases h
      obtain ⟨_, hdw⟩ := matchAfterUtm_some_shape t v hm
      have h1 : ('=' :: v).length ≤ t.length := by
        rw [← hdw]
        exact (List.dropWhile_sublist isWordChar).length_le
      have h2 := dropPrefix?_length utmLit l t hd
      simp only [List.length_cons] at h1
      omega
    | none =>
      simp only [matchKeyEq, hd, hm] at h
      exact matchLit_length litKeys l v h
  | none =>
    simp only [matchKeyEq, hd] at h
    exact matchLit_length litKeys l v h

lemma stripTrackingF_congr :
    ∀ fuel1 fuel2 l, l.length ≤ fuel1 → l.length ≤ fuel2 →
      stripTrackingF fuel1 l = stripTrackingF fuel2 l := by
  intro fuel1
  induction fuel1 with
  | zero =>
    intro fuel2 l h1 h2
    cases l with
    | nil => cases fuel2 <;> rfl
    | cons c rest => simp at h1
  | succ f ih =>
    intro fuel2 l h1 h2
    cases l with
    | nil => cases fuel2 <;> rfl
    | cons c rest =>
      cases fuel2 with
      | zero => simp at h2
      | succ f2 =>
        simp only [List.length_cons, Nat.succ_le_succ_iff] at h1 h2
        simp only [stripTrackingF]
        by_cases hc : c = '?' ∨ c = '&'
        · rw [if_pos hc, if_pos hc]
          cases hm : matchKeyEq rest with
          | some v =>
            have hlen : (v.dropWhile (fun d => !(d == '&'))).length ≤ rest.length :=
              le_trans (List.dropWhile_sublist _).length_le (matchKeyEq_length rest v hm)
            simp only [hm]
            exact ih f2 _ (le_trans hlen h1) (le_trans hlen h2)
          | none =>
            simp only [hm]
            rw [ih f2 rest h1 h2]
        · rw [if_neg hc, if_neg hc, ih f2 rest h1 h2]

lemma stripTracking_nil : stripTracking [] = [] := rfl

lemma stripTracking_cons_no (c : Char) (rest : List Char) (hc : ¬(c = '?' ∨ c = '&')) :
    stripTracking (c :: rest) = c :: stripTracking rest := by
  unfold stripTracking
  simp only [List.length_cons, stripTrackingF, if_neg hc]

lemma stripTracking_cons_none (c : Char) (rest : List Char) (hc : c = '?' ∨ c = '&')
    (hm : matchKeyEq rest = none) :
    stripTracking (c :: rest) = c :: stripTracking rest := by
  unfold stripTracking
  simp only [List.length_cons, stripTrackingF, if_pos hc, hm]

lemma stripTracking_cons_some (c : Char) (rest v : List Char) (hc : c = '?' ∨ c = '&')
    (hm : matchKeyEq rest = some v) :
    stripTracking (c :: rest)
      = stripTracking (v.dropWhile (fun d => !(d == '&'))) := by
  unfold stripTracking
  simp only [List.length_cons, stripTrackingF, if_pos hc, hm]
  exact stripTrackingF_congr _ _ _
    (le_trans (List.dropWhile_sublist _).length_le (matchKeyEq_length rest v hm))
    (le_refl _)

lemma stripTracking_append (z : List Char) (hz : GoodHead z)
    (hz3 : stripTracking (z.dropWhile (fun d => !(d == '&'))) = []) :
    ∀ u, stripTracking (u ++ z) = stripTracking u ++ stripTracking z
       ∨ stripTracking (u ++ z) = stripTracking u := by
  suffices h : ∀ n u, u.length ≤ n →
      (stripTracking (u ++ z) = stripTracking u ++ stripTracking z
       ∨ stripTracking (u ++ z) = stripTracking u) from
    fun u => h u.length u (le_refl _)
  intro n
  induction n with
  | zero =>
    intro u hu
    have he : u = [] := List.length_eq_zero.mp (Nat.le_zero.mp hu)
    subst he
    left
    rw [List.nil_append, stripTracking_nil, List.nil_append]
  | succ n ih =>
    intro u hu
    cases u with
    | nil =>
      left
      rw [List.nil_append, stripTracking_nil, List.nil_append]
    | cons c rest =>
      have hrest : rest.length ≤ n := by
        simp only [List.length_cons, Nat.succ_le_succ_iff] at hu
        exact hu
      by_cases hc : c = '?' ∨ c = '&'
      · cases hm : matchKeyEq rest with
        | some v =>
          have hm2 : matchKeyEq (rest ++ z) = some (v ++ z) :=
            matchKeyEq_append_some z hz rest v hm
          rw [List.cons_append, stripTracking_cons_some c _ _ hc hm2,
            stripTracking_cons_some c rest v hc hm]
          by_cases hv : (v.dropWhile (fun d => !(d == '&'))).isEmpty
          · have h1 : (v ++ z).dropWhile (fun d => !(d == '&'))
                = z.dropWhile (fun d => !(d == '&')) := by
              rw [List.dropWhile_append, if_pos hv]
            have h2 : v.dropWhile (fun d => !(d == '&')) = [] := by
              simpa using hv
            right
            rw [h1, hz3, h2, stripTracking_nil]
          · have h1 : (v ++ z).dropWhile (fun d => !(d == '&'))
                = v.dropWhile (fun d => !(d == '&')) ++ z := by
              rw [List.dropWhile_append, if_neg hv]
            rw [h1]
            exact ih _ (le_trans (List.dropWhile_sublist _).length_le
              (le_trans (matchKeyEq_length rest v hm) hrest))
        | none =>
          have hm2 := matchKeyEq_append_none z hz rest hm
          rw [List.cons_append, stripTracking_cons_none c _ hc hm2,
            stripTracking_cons_none c rest hc hm]
          rcases ih rest hrest with h | h
          · left
            rw [h, List.cons_append]
          · right
            rw [h]
      · rw [List.cons_append, stripTracking_cons_no c _ hc, stripTracking_cons_no c rest hc]
        rcases ih rest hrest with h | h
        · left
          rw [h, List.cons_append]
        · right
          rw [h]

/-- A key removed by the tracking regex: `utm_` followed by a nonempty
word-character run, or one of the literal keys. -/
def IsTrackingKey (k : List Char) : Prop :=
  (∃ w, w ≠ [] ∧ (∀ c ∈ w, isWordChar c = true) ∧ k = utmLit ++ w) ∨ k ∈ litKeys

lemma matchKeyEq_key (k v : List Char) (hk : IsTrackingKey k) :
    matchKeyEq (k ++ '=' :: v) = some v := by
  rcases hk with ⟨w, hw1, hw2, rfl⟩ | hk
  · have hd : dropPrefix? utmLit ((utmLit ++ w) ++ '=' :: v) = some (w ++ '=' :: v) := by
      rw [List.append_assoc]
      exact dropPrefix?_self_append utmLit (w ++ '=' :: v)
    have hma : matchAfterUtm (w ++ '=' :: v) = some v := by
      have htw : (w ++ '=' :: v).takeWhile isWordChar = w := by
        rw [List.takeWhile_append_of_pos hw2, List.takeWhile_cons_of_neg (by decide),
          List.append_nil]
      have hdw : (w ++ '=' :: v).dropWhile isWordChar = '=' :: v := by
        rw [List.dropWhile_append_of_pos hw2, List.dropWhile_cons_of_neg (by decide)]
      unfold matchAfterUtm
      rw [if_pos ⟨by rw [htw]; exact hw1, by rw [hdw]; rfl⟩, hdw]
      rfl
    simp only [matchKeyEq, hd, hma]
  · rcases (by simpa [litKeys] using hk :
        k = "ref".toList ∨ k = "source".toList ∨ k = "fbclid".toList ∨ k = "gclid".toList)
      with rfl | rfl | rfl | rfl
    · rfl
    · rfl
    · rfl
    · rfl

lemma goodHead_sep (sep : Char) (hsep : sep = '?' ∨ sep = '&') (body : List Char) :
    GoodHead (sep :: body) := by
  intro c cs e
  injection e with e1 _
  subst e1
  rcases hsep with rfl | rfl
  · exact ⟨by decide, by decide⟩
  · exact ⟨by decide, by decide⟩

lemma no_amp_in_key (k : List Char) (hk : IsTrackingKey k) : '&' ∉ k := by
  rcases hk with ⟨w, _, hw2, rfl⟩ | hk
  · intro hmem
    rcases List.mem_append.mp hmem with h | h
    · revert h
      decide
    · have := hw2 '&' h
      revert this
      decide
  · rcases (by simpa [litKeys] using hk :
        k = "ref".toList ∨ k = "source".toList ∨ k = "fbclid".toList ∨ k = "gclid".toList)
      with rfl | rfl | rfl | rfl
    all_goals decide

lemma tracking_z_strip (sep : Char) (k v : List Char) (hsep : sep = '?' ∨ sep = '&')
    (hk : IsTrackingKey k) (hv : '&' ∉ v) :
    stripTracking (sep :: (k ++ '=' :: v)) = [] := by
  rw [stripTracking_cons_some sep _ v hsep (matchKeyEq_key k v hk)]
  have hnil : v.dropWhile (fun d => !(d == '&')) = [] := by
    rw [List.dropWhile_eq_nil_iff]
    intro x hx
    have hxne : x ≠ '&' := fun e => hv (e ▸ hx)
    simp [hxne]
  rw [hnil, stripTracking_nil]

lemma tracking_z_dropAmp (sep : Char) (k v : List Char) (hsep : sep = '?' ∨ sep = '&')
    (hk : IsTrackingKey k) (hv : '&' ∉ v) :
    stripTracking ((sep :: (k ++ '=' :: v)).dropWhile (fun d => !(d == '&'))) = [] := by
  rcases hsep with rfl | rfl
  · have hnil : (('?') :: (k ++ '=' :: v)).dropWhile (fun d => !(d == '&')) = [] := by
      rw [List.dropWhile_eq_nil_iff]
      intro x hx
      rcases List.mem_cons.mp hx with rfl | hx
      · decide
      · rcases List.mem_append.mp hx with hxk | hxv
        · have hxne : x ≠ '&' := fun e => no_amp_in_key k hk (e ▸ hxk)
          simp [hxne]
        · rcases List.mem_cons.mp hxv with rfl | hxv
          · decide
          · have hxne : x ≠ '&' := fun e => hv (e ▸ hxv)
            simp [hxne]
    rw [hnil, stripTracking_nil]
  · rw [List.dropWhile_cons_of_neg (by decide)]
    exact tracking_z_strip '&' k v (Or.inr rfl) hk hv

lemma stripTracking_append_tracking (u : List Char) (sep : Char) (k v : List Char)
    (hsep : sep = '?' ∨ sep = '&') (hk : IsTrackingKey k) (hv : '&' ∉ v) :
    stripTracking (u ++ sep :: (k ++ '=' :: v)) = stripTracking u := by
  rcases stripTracking_append (sep :: (k ++ '=' :: v)) (goodHead_sep sep hsep _)
      (tracking_z_dropAmp sep k v hsep hk hv) u with h | h
  · rw [h, tracking_z_strip sep k v hsep hk hv, List.append_nil]
  · exact h

lemma rstripSlash_append_slash (x : List Char) : rstripSlash (x ++ ['/']) = rstripSlash x := by
  unfold rstripSlash
  rw [List.reverse_append, show List.reverse ['/'] = ['/'] from rfl, List.singleton_append,
    List.dropWhile_cons_of_pos (by decide)]

lemma rstripSlash_append_left (a x : List Char) (hx : rstripSlash x ≠ []) :
    rstripSlash (a ++ x) = a ++ rstripSlash x := by
  unfold rstripSlash at hx ⊢
  rw [List.reverse_append, List.dropWhile_append]
  have hne : ¬ ((x.reverse.dropWhile fun c => c == '/').isEmpty) := by
    intro hempty
    rw [List.isEmpty_iff] at hempty
    rw [hempty] at hx
    exact hx rfl
  rw [if_neg hne, List.reverse_append, List.reverse_reverse]

lemma replaceHttpF_congr :
    ∀ fuel1 fuel2 l, l.length ≤ fuel1 → l.length ≤ fuel2 →
      replaceHttpF fuel1 l = replaceHttpF fuel2 l := by
  intro fuel1
  induction fuel1 with
  | zero =>
    intro fuel2 l h1 h2
    have he : l = [] := List.length_eq_zero.mp (Nat.le_zero.mp h1)
    subst he
    cases fuel2 <;> rfl
  | succ f ih =>
    intro fuel2 l h1 h2
    cases l with
    | nil => cases fuel2 <;> rfl
    | cons c rest =>
      cases fuel2 with
      | zero => simp at h2
      | succ f2 =>
        simp only [List.length_cons, Nat.succ_le_succ_iff] at h1 h2
        simp only [replaceHttpF]
        cases hd : dropPrefix? httpLit (c :: rest) with
        | some tail =>
          have hlen := dropPrefix?_length httpLit (c :: rest) tail hd
          have htail : tail.length ≤ rest.length := by
            simp only [List.length_cons] at hlen
            rw [show httpLit.length = 7 from rfl] at hlen
            omega
          simp only [hd]
          rw [ih f2 tail (le_trans htail h1) (le_trans htail h2)]
        | none =>
          simp only [hd]
          rw [ih f2 rest h1 h2]

lemma replaceHttp_cons_match (c : Char) (rest tail : List Char)
    (h : dropPrefix? httpLit (c :: rest) = some tail) :
    replaceHttp (c :: rest) = httpsLit ++ replaceHttp tail := by
  unfold replaceHttp
  simp only [List.length_cons, replaceHttpF, h]
  have hlen := dropPrefix?_length httpLit (c :: rest) tail h
  have htail : tail.length ≤ rest.length := by
    simp only [List.length_cons] at hlen
    rw [show httpLit.length = 7 from rfl] at hlen
    omega
  rw [replaceHttpF_congr rest.length tail.length tail htail (le_refl _)]

lemma replaceHttp_cons_no (c : Char) (rest : List Char)
    (h : dropPrefix? httpLit (c :: rest) = none) :
    replaceHttp (c :: rest) = c :: replaceHttp rest := by
  unfold replaceHttp
  simp only [List.length_cons, replaceHttpF, h]

lemma replaceHttp_http (y : List Char) :
    replaceHttp (httpLit ++ y) = httpsLit ++ replaceHttp y := by
  have hd : dropPrefix? httpLit (httpLit ++ y) = some y := dropPrefix?_self_append _ _
  rw [show httpLit ++ y = 'h' :: ('t' :: 't' :: 'p' :: ':' :: '/' :: '/' :: y) from rfl] at hd ⊢
  exact replaceHttp_cons_match 'h' _ y hd

lemma replaceHttp_https (y : List Char) :
    replaceHttp (httpsLit ++ y) = httpsLit ++ replaceHttp y := by
  rw [show httpsLit ++ y = 'h' :: ('t' :: 't' :: 'p' :: 's' :: ':' :: '/' :: '/' :: y) from rfl]
  rw [replaceHttp_cons_no 'h' ('t' :: 't' :: 'p' :: 's' :: ':' :: '/' :: '/' :: y) rfl,
    replaceHttp_cons_no 't' ('t' :: 'p' :: 's' :: ':' :: '/' :: '/' :: y) rfl,
    replaceHttp_cons_no 't' ('p' :: 's' :: ':' :: '/' :: '/' :: y) rfl,
    replaceHttp_cons_no 'p' ('s' :: ':' :: '/' :: '/' :: y) rfl,
    replaceHttp_cons_no 's' (':' :: '/' :: '/' :: y) rfl,
    replaceHttp_cons_no ':' ('/' :: '/' :: y) rfl,
    replaceHttp_cons_no '/' ('/' :: y) rfl,
    replaceHttp_cons_no '/' y rfl]
  rfl

lemma normalize_url_append_tracking (u : List Char) (sep : Char) (k v : List Char)
    (hsep : sep = '?' ∨ sep = '&') (hk : IsTrackingKey k) (hv : '&' ∉ v) :
    normalize_url (u ++ sep :: (k ++ '=' :: v)) = normalize_url u := by
  unfold normalize_url
  rw [stripTracking_append_tracking u sep k v hsep hk hv]

lemma normalize_url_append_slash (u : List Char) :
    normalize_url (u ++ ['/']) = normalize_url u := by
  unfold normalize_url
  rcases stripTracking_append ['/']
      (by intro c cs e; injection e with e1 _; subst e1; exact ⟨by decide, by decide⟩)
      (by rfl) u with h | h
  · rw [h, show stripTracking ['/'] = ['/'] from rfl, rstripSlash_append_slash]
  · rw [h]

lemma normalize_url_scheme (r : List Char) (hr : rstripSlash (stripTracking r) ≠ []) :
    normalize_url (httpLit ++ r) = normalize_url (httpsLit ++ r) := by
  unfold normalize_url
  have h1 : stripTracking (httpLit ++ r) = httpLit ++ stripTracking r := by
    rw [show httpLit ++ r = 'h' :: 't' :: 't' :: 'p' :: ':' :: '/' :: '/' :: r from rfl]
    rw [stripTracking_cons_no _ _ (by decide), stripTracking_cons_no _ _ (by decide),
      stripTracking_cons_no _ _ (by decide), stripTracking_cons_no _ _ (by decide),
      stripTracking_cons_no _ _ (by decide), stripTracking_cons_no _ _ (by decide),
      stripTracking_cons_no _ _ (by decide)]
    rfl
  have h2 : stripTracking (httpsLit ++ r) = httpsLit ++ stripTracking r := by
    rw [show httpsLit ++ r = 'h' :: 't' :: 't' :: 'p' :: 's' :: ':' :: '/' :: '/' :: r from rfl]
    rw [stripTracking_cons_no _ _ (by decide), stripTracking_cons_no _ _ (by decide),
      stripTracking_cons_no _ _ (by decide), stripTracking_cons_no _ _ (by decide),
      stripTracking_cons_no _ _ (by decide), stripTracking_cons_no _ _ (by decide),
      stripTracking_cons_no _ _ (by decide), stripTracking_cons_no _ _ (by decide)]
    rfl
  rw [h1, h2, rstripSlash_append_left httpLit _ hr, rstripSlash_append_left httpsLit _ hr,
    replaceHttp_http, replaceHttp_https]

/-- Two URLs differing only by one tracking query parameter, a trailing
slash, or the `http://` vs `https://` scheme (the claim's hypothesis
class). -/
inductive UrlVariant : List Char → List Char → Prop where
  | tracking (u : List Char) (sep : Char) (k v : List Char)
      (hsep : sep = '?' ∨ sep = '&') (hk : IsTrackingKey k) (hv : '&' ∉ v) :
      UrlVariant u (u ++ sep :: (k ++ '=' :: v))
  | slash (u : List Char) : UrlVariant u (u ++ ['/'])
  | scheme (r : List Char) : UrlVariant (httpLit ++ r) (httpsLit ++ r)

/-- `UrlVariant` restricted to non-degenerate scheme pairs: the part
after the scheme must not normalize to the empty string (e.g. the URLs
are not `http://` vs `https://` themselves). -/
inductive UrlVariantOK : List Char → List Char → Prop where
  | tracking (u : List Char) (sep : Char) (k v : List Char)
      (hsep : sep = '?' ∨ sep = '&') (hk : IsTrackingKey k) (hv : '&' ∉ v) :
      UrlVariantOK u (u ++ sep :: (k ++ '=' :: v))
  | slash (u : List Char) : UrlVariantOK u (u ++ ['/'])
  | scheme (r : List Char) (hr : rstripSlash (stripTracking r) ≠ []) :
      UrlVariantOK (httpLit ++ r) (httpsLit ++ r)

lemma normalize_eq_of_variantOK (u1 u2 : List Char) (h : UrlVariantOK u1 u2) :
    normalize_url u2 = normalize_url u1 :=
  match h with
  | .tracking u sep k v hsep hk hv => normalize_url_append_tracking u sep k v hsep hk hv
  | .slash u => normalize_url_append_slash u
  | .scheme r hr => (normalize_url_scheme r hr).symm

lemma dedup_by_url_pair (r1 r2 : NewsItem) (h : urlKey r2 = urlKey r1) :
    dedup_by_url [r1, r2]
      = [if engagement_score r1 < engagement_score r2 then r2 else r1] := by
  unfold dedup_by_url
  rw [List.foldl_cons, List.foldl_cons, List.foldl_nil]
  rw [show upsert [] (urlKey r1) r1 = [(urlKey r1, r1)] from rfl]
  rw [show upsert [(urlKey r1, r1)] (urlKey r2) r2
      = if urlKey r1 = urlKey r2 then
          (if engagement_score r1 < engagement_score r2
            then (urlKey r1, r2) else (urlKey r1, r1)) :: []
        else (urlKey r1, r1) :: upsert [] (urlKey r2) r2 from rfl]
  rw [if_pos h.symm]
  by_cases hs : engagement_score r1 < engagement_score r2
  · rw [if_pos hs, if_pos hs]
    rfl
  · rw [if_neg hs, if_neg hs]
    rfl

/-- C2 (amended): for two records whose URLs differ only by a tracking
parameter, a trailing slash, or the scheme — excluding the degenerate
scheme pair whose post-scheme part normalizes to the empty string —
Phase-1 URL deduplication keeps exactly one record: the one with the
strictly higher `engagement_score`, and on a tie the one earlier in the
input. -/
theorem C2_url_conflict_amended (r1 r2 : NewsItem)
    (h : UrlVariantOK r1.url r2.url ∨ UrlVariantOK r2.url r1.url) :
    dedup_by_url [r1, r2]
      = [if engagement_score r1 < engagement_score r2 then r2 else r1] := by
  apply dedup_by_url_pair
  rcases h with h | h
  · exact normalize_eq_of_variantOK _ _ h
  · exact (normalize_eq_of_variantOK _ _ h).symm

/-- Record with the degenerate url `http://`, for the C2
counterexample. -/
def cxSchemeA : NewsItem := mkItem [] ("http://".toList) ("tech_news") 1 0 [] ""

/-- Record with the degenerate url `https://`. -/
def cxSchemeB : NewsItem := mkItem [] ("https://".toList) ("tech_news") 5 0 [] ""

/-- Counterexample to C2 as stated: `http://` and `https://` differ only
by scheme, yet Phase-1 keeps both records (their normalized URLs are
`http:` and `https:`), so no single record survives and the
higher-scored record does not replace the other. -/
theorem C2_counterexample :
    UrlVariant cxSchemeA.url cxSchemeB.url
    ∧ dedup_by_url [cxSchemeA, cxSchemeB] = [cxSchemeA, cxSchemeB]
    ∧ (dedup_by_url [cxSchemeA, cxSchemeB]).length = 2 := by
  refine ⟨?_, ?_, ?_⟩
  · exact UrlVariant.scheme []
  · rfl
  · rfl

/-- The C2 witness pair from the spec's own example: same page with and
without `utm_source`, scores 10 and 50. -/
def c2wA : NewsItem := mkItem [] ("https://x.com/p".toList) ("twitter") 10 0 [] ""

/-- The higher-scored tracking-parameter variant. -/
def c2wB : NewsItem := mkItem [] ("https://x.com/p?utm_source=y".toList) ("twitter") 50 0 [] ""

/-- Witness for the amended C2: the higher-scored variant survives at
the shared normalized URL. -/
theorem C2_url_conflict_amended_witness :
    dedup_by_url [c2wA, c2wB] = [c2wB] := by
  have hv : UrlVariantOK c2wA.url c2wB.url := by
    rw [show c2wB.url = c2wA.url ++ '?' :: ("utm_source".toList ++ '=' :: "y".toList) from rfl]
    exact UrlVariantOK.tracking c2wA.url '?' ("utm_source".toList) ("y".toList)
      (Or.inl rfl) (Or.inl ⟨"source".toList, by decide, by decide, by decide⟩) (by decide)
  have h := C2_url_conflict_amended c2wA c2wB (Or.inl hv)
  rw [h, if_pos ?_]
  simp only [engagement_score, c2wA, c2wB, mkItem, show kolMultiplier "" = 1 from rfl]
  norm_num
